import Mathlib

/-!
Shallow embedding of the sudojo_ocr computer-vision core
(`src/algorithms/imageProcessing.ts`, `src/algorithms/boardDetection.ts`,
`src/algorithms/digitParsing.ts`) and proofs about it.

Conventions of the embedding:
* JS `Uint8Array` / `Uint8ClampedArray` buffers become `List ℕ`; the JS
  `safeGet` helper (out-of-range reads give 0) becomes `List.getD _ _ 0`.
* JS floating-point arithmetic is embedded exactly over `ℚ`
  (e.g. `0.299 = 299/1000`); `Math.floor` on a non-negative quantity of the
  form `a / b` with `a b : ℕ` is Nat division.
* Fallible functions returning `T | null` become `Option T`.
-/

namespace SudojoOCR

/-- `ImageDataLike` from `types.ts`: an RGBA byte buffer with dimensions. -/
structure ImageDataLike where
  data : List ℕ
  width : ℕ
  height : ℕ
  deriving Repr, DecidableEq

/-- `Rectangle` from `types.ts`. Coordinates are integers (JS numbers used as
integer pixel coordinates; `ℤ` because the source can produce `height - 1`
for `height = 0`). -/
structure Rectangle where
  left : ℤ
  top : ℤ
  right : ℤ
  bottom : ℤ
  deriving Repr, DecidableEq

/-- Result type of `squarifyRectangle`. -/
structure SquareRegion where
  x : ℤ
  y : ℤ
  size : ℤ
  deriving Repr, DecidableEq

/-! ## digitParsing.ts -/

/-- The character class `[1-9]` used by `parseDigitFromText`. -/
def isDigit19 (c : Char) : Bool :=
  '1' ≤ c && c ≤ '9'

/-- `parseInt` on a single digit character. -/
def digitVal (c : Char) : ℕ :=
  c.toNat - 48

/-- The `CORRECTIONS` table of `digitParsing.ts`, as a partial map from
characters to digits. -/
def CORRECTIONS (c : Char) : Option ℕ :=
  match c with
  | 'l' => some 1
  | 'I' => some 1
  | '|' => some 1
  | 'i' => some 1
  | '!' => some 1
  | 'Z' => some 2
  | 'z' => some 2
  | 'E' => some 3
  | 'A' => some 4
  | 'h' => some 4
  | 'S' => some 5
  | 's' => some 5
  | 'G' => some 6
  | 'b' => some 6
  | 'T' => some 7
  | '/' => some 7
  | '?' => some 7
  | ')' => some 7
  | ']' => some 7
  | 'J' => some 7
  | 'j' => some 7
  | 'B' => some 8
  | 'g' => some 9
  | 'q' => some 9
  | '0' => some 9
  | 'O' => some 9
  | 'o' => some 9
  | _ => none

/-- The whitespace class removed by JS `String.prototype.trim`. -/
def isJsWhitespace (c : Char) : Bool :=
  c = ' ' || c = '\t' || c = '\n' || c.toNat = 11 || c.toNat = 12 ||
  c.toNat = 13 || c.toNat = 160 || c.toNat = 0x2028 || c.toNat = 0x2029 ||
  c.toNat = 0xfeff

/-- `text.trim()` on the character list of the string. -/
def jsTrim (s : List Char) : List Char :=
  ((s.dropWhile isJsWhitespace).reverse.dropWhile isJsWhitespace).reverse

/-- Strategies 2 and 3 of `parseDigitFromText`: first `[1-9]` match in the
trimmed text, then the first character present in `CORRECTIONS`. -/
def parseRest (clean : List Char) : Option ℕ :=
  match clean.find? isDigit19 with
  | some c => some (digitVal c)
  | none => clean.findSome? CORRECTIONS

/-- `parseDigitFromText` from `digitParsing.ts`, on the character list of the
argument string. -/
def parseDigitFromText (text : List Char) : Option ℕ :=
  let clean := jsTrim text
  match clean with
  | [c] => if isDigit19 c then some (digitVal c) else parseRest clean
  | _ => parseRest clean

/-! Specification-side reading of `parseDigitFromText` (from the spec's
description of DigitTextCorrector): three strategies in strict priority
order, first success wins. -/

/-- Spec strategy 1: the trimmed text is exactly one character and that
character is a digit 1–9. -/
def specStrategy1 (clean : List Char) : Option ℕ :=
  match clean with
  | [c] => if isDigit19 c then some (digitVal c) else none
  | _ => none

/-- Spec strategy 2: the leftmost digit 1–9 occurring anywhere. -/
def specStrategy2 (clean : List Char) : Option ℕ :=
  (clean.find? isDigit19).map digitVal

/-- Spec strategy 3: the mapped digit of the first character present in the
correction table. -/
def specStrategy3 (clean : List Char) : Option ℕ :=
  clean.findSome? CORRECTIONS

/-! ## boardDetection.ts: squarifyRectangle -/

/-- `squarifyRectangle` from `boardDetection.ts`. `Math.floor(x / 2)` on an
integer `x` is flooring division `Int.fdiv`. -/
def squarifyRectangle (rect : Rectangle) : SquareRegion :=
  let width := rect.right - rect.left
  let height := rect.bottom - rect.top
  let size := min width height
  let extraWidth := width - size
  let extraHeight := height - size
  { x := rect.left + Int.fdiv extraWidth 2
    y := rect.top + Int.fdiv extraHeight 2
    size := size }

/-! ## imageProcessing.ts: luma and binarize -/

/-- The luma expression `0.299*r + 0.587*g + 0.114*b` evaluated exactly:
`(299*r + 587*g + 114*b) / 1000 : ℚ`. -/
def lumaQ (r g b : ℕ) : ℚ :=
  (299 * r + 587 * g + 114 * b : ℕ) / 1000

/-- `Math.floor` of `lumaQ`; for naturals this is Nat division by 1000. -/
def lumaFloor (r g b : ℕ) : ℕ :=
  (299 * r + 587 * g + 114 * b) / 1000

/-- The per-chunk loop of `binarize`: the buffer is walked four bytes at a
time (`i += 4`); each complete RGBA chunk becomes `v v v a` with
`v = 0` if the pixel's luma is `< threshold`, else `255`.  A trailing
incomplete chunk is processed with out-of-range reads giving 0 and
out-of-range writes dropped, exactly as `safeGet`/`Uint8ClampedArray`
behave in the source. -/
def binarizeRun (t : ℚ) : List ℕ → List ℕ
  | r :: g :: b :: a :: rest =>
    let v := if lumaQ r g b < t then 0 else 255
    v :: v :: v :: a :: binarizeRun t rest
  | [r, g, b] => [if lumaQ r g b < t then 0 else 255,
                  if lumaQ r g b < t then 0 else 255,
                  if lumaQ r g b < t then 0 else 255]
  | [r, g] => [if lumaQ r g 0 < t then 0 else 255,
               if lumaQ r g 0 < t then 0 else 255]
  | [r] => [if lumaQ r 0 0 < t then 0 else 255]
  | [] => []

/-- `binarize` from `imageProcessing.ts` (threshold default 160). -/
def binarize (img : ImageDataLike) (threshold : ℚ) : ImageDataLike :=
  { data := binarizeRun threshold img.data
    width := img.width
    height := img.height }

/-! ## imageProcessing.ts: toGrayscale, gaussianBlur, cannyEdgeDetection -/

/-- `toGrayscale`: one intensity byte per pixel,
`Math.floor(0.299 R + 0.587 G + 0.114 B)`. -/
def toGrayscale (img : ImageDataLike) : List ℕ :=
  (List.range (img.width * img.height)).map fun i =>
    lumaFloor (img.data.getD (i * 4) 0) (img.data.getD (i * 4 + 1) 0)
      (img.data.getD (i * 4 + 2) 0)

/-- The 3×3 Gaussian kernel `[1,2,1,2,4,2,1,2,1]` of `gaussianBlur`. -/
def blurKernel : List ℕ := [1, 2, 1, 2, 4, 2, 1, 2, 1]

/-- The kernel accumulation loop of `gaussianBlur` at interior pixel `(x,y)`
(`ky`,`kx` range over `0..2` here where the source uses `-1..1`, so the
neighbour index is `(y + ky - 1) * w + (x + kx - 1)`; at interior pixels
`y`,`x ≥ 1` keep the Nat subtraction exact). -/
def blurSum (gray : List ℕ) (w x y : ℕ) : ℕ :=
  ((List.range 3).map fun ky =>
    ((List.range 3).map fun kx =>
      gray.getD ((y + ky - 1) * w + (x + kx - 1)) 0 *
        blurKernel.getD (ky * 3 + kx) 0).sum).sum

/-- `gaussianBlur` from `imageProcessing.ts`.  The source allocates a
zero-filled output of `w*h` bytes and writes only interior pixels
(`1 ≤ x ≤ w-2`, `1 ≤ y ≤ h-2`), leaving every other output byte at 0; merged
per index `i = y*w + x` this is the conditional below.
`Math.floor(sum/16)` of naturals is Nat division. -/
def gaussianBlur (gray : List ℕ) (w h : ℕ) : List ℕ :=
  (List.range (w * h)).map fun i =>
    let x := i % w
    let y := i / w
    if 1 ≤ x ∧ x + 1 < w ∧ 1 ≤ y ∧ y + 1 < h then blurSum gray w x y / 16 else 0

/-- The Sobel horizontal kernel of `cannyEdgeDetection`. -/
def sobelX : List ℤ := [-1, 0, 1, -2, 0, 2, -1, 0, 1]

/-- The Sobel vertical kernel of `cannyEdgeDetection`. -/
def sobelY : List ℤ := [-1, -2, -1, 0, 0, 0, 1, 2, 1]

/-- The `gx` accumulation of `cannyEdgeDetection` at interior pixel `(x,y)`. -/
def sobelGx (gray : List ℕ) (w x y : ℕ) : ℤ :=
  ((List.range 3).map fun ky =>
    ((List.range 3).map fun kx =>
      (gray.getD ((y + ky - 1) * w + (x + kx - 1)) 0 : ℤ) *
        sobelX.getD (ky * 3 + kx) 0).sum).sum

/-- The `gy` accumulation of `cannyEdgeDetection` at interior pixel `(x,y)`. -/
def sobelGy (gray : List ℕ) (w x y : ℕ) : ℤ :=
  ((List.range 3).map fun ky =>
    ((List.range 3).map fun kx =>
      (gray.getD ((y + ky - 1) * w + (x + kx - 1)) 0 : ℤ) *
        sobelY.getD (ky * 3 + kx) 0).sum).sum

/-- The squared gradient magnitude `gx*gx + gy*gy` stored by
`cannyEdgeDetection` in its `magnitude` array (the source stores
`sqrt(gx²+gy²)`; we track the square, which determines it).  Interior
pixels get the Sobel value, every other entry keeps the allocation
default 0. -/
def magSq (gray : List ℕ) (w h : ℕ) (i : ℕ) : ℤ :=
  let x := i % w
  let y := i / w
  if i < w * h ∧ 1 ≤ x ∧ x + 1 < w ∧ 1 ≤ y ∧ y + 1 < h then
    sobelGx gray w x y ^ 2 + sobelGy gray w x y ^ 2
  else 0

/-- The running maximum `maxMag` of `cannyEdgeDetection`, squared: the
maximum of the squared magnitudes with initial value 0 (non-interior
indices contribute their stored 0, which never changes a maximum that
starts at 0). -/
def maxMagSq (gray : List ℕ) (w h : ℕ) : ℤ :=
  (List.range (w * h)).foldl (fun m i => max m (magSq gray w h i)) 0

/-- `cannyEdgeDetection` from `imageProcessing.ts`.  The source sets
`edges[i] = 255` iff `mag > 0.2 * maxMag` with `mag = sqrt(magSq i)` and
`maxMag = sqrt(maxMagSq)`; squaring the (non-negative) comparison gives
`magSq i > maxMagSq / 25`, i.e. `25 * magSq i > maxMagSq`. -/
def cannyEdgeDetection (gray : List ℕ) (w h : ℕ) : List ℕ :=
  (List.range (w * h)).map fun i =>
    if 25 * magSq gray w h i > maxMagSq gray w h then 255 else 0

/-! ## imageProcessing.ts: enhanceContrast; dilate -/

/-- JS `Math.round`: `⌊x + 1/2⌋`. -/
def jsRound (q : ℚ) : ℤ := ⌊q + 1 / 2⌋

/-- `Math.max(0, Math.min(255, z))` on an integer, as a byte. -/
def clamp255 (z : ℤ) : ℕ := (max 0 (min 255 z)).toNat

/-- The average-brightness pass of `enhanceContrast`: the loop
`for (i = 0; i < data.length; i += 4)` makes `⌈length/4⌉` iterations, and the
average divides by `data.length / 4` (a JS real division). -/
def avgBrightness (data : List ℕ) : ℚ :=
  (((List.range ((data.length + 3) / 4)).map fun k =>
    lumaQ (data.getD (4 * k) 0) (data.getD (4 * k + 1) 0)
      (data.getD (4 * k + 2) 0)).sum) / ((data.length : ℚ) / 4)

/-- `enhanceContrast` from `imageProcessing.ts` (factor default 1.5):
every color byte is pushed away from the buffer's average luma and
clamped; every alpha byte (`i % 4 = 3`) is copied. -/
def enhanceContrast (img : ImageDataLike) (factor : ℚ) : ImageDataLike :=
  { data := (List.range img.data.length).map fun i =>
      if i % 4 = 3 then img.data.getD i 0
      else clamp255 (jsRound (avgBrightness img.data +
        ((img.data.getD i 0 : ℚ) - avgBrightness img.data) * factor))
    width := img.width
    height := img.height }

/-- The 3×3 neighbourhood scan of `dilate` at pixel `(x,y)`: true iff some
pixel of the neighbourhood (including the pixel itself) has its **red**
channel (`data[idx]` with `idx = (ny*w + nx)*4`) below 128. -/
def hasDarkNeighbor (data : List ℕ) (w x y : ℕ) : Bool :=
  (List.range 3).any fun dy =>
    (List.range 3).any fun dx =>
      data.getD (((y + dy - 1) * w + (x + dx - 1)) * 4) 0 < 128

/-- `dilate` from `imageProcessing.ts` (the revision carrying the dilation
retry path).  The source copies the buffer, then for each interior pixel
with a dark neighbour overwrites the three color bytes with 0; merged per
byte index `i` (pixel `i/4`, channel `i%4`, coordinates `x = (i/4) % w`,
`y = (i/4) / w`) this is the conditional below.  All neighbour tests read
the original buffer. -/
def dilate (img : ImageDataLike) : ImageDataLike :=
  { data := (List.range img.data.length).map fun i =>
      let x := i / 4 % img.width
      let y := i / 4 / img.width
      if i % 4 ≤ 2 ∧ 1 ≤ x ∧ x + 1 < img.width ∧ 1 ≤ y ∧ y + 1 < img.height ∧
          hasDarkNeighbor img.data img.width x y then 0
      else img.data.getD i 0
    width := img.width
    height := img.height }

/-- Channel `c` of pixel `(x,y)` of a buffer (row-major RGBA). -/
def pixelAt (img : ImageDataLike) (x y c : ℕ) : ℕ :=
  img.data.getD ((y * img.width + x) * 4 + c) 0

end SudojoOCR

namespace SudojoOCR

/-! ## Theorems: C3 (digit parsing) -/

theorem parseRest_eq_strategies (clean : List Char) :
    parseRest clean = (specStrategy2 clean).orElse fun _ => specStrategy3 clean := by
  unfold parseRest specStrategy2 specStrategy3
  cases clean.find? isDigit19 <;> simp [Option.orElse]

theorem parseDigit_strategy1_subsumed (clean : List Char) :
    (specStrategy1 clean).isSome → specStrategy2 clean = specStrategy1 clean := by
  unfold specStrategy1 specStrategy2
  match clean with
  | [] => simp
  | [c] =>
    by_cases h : isDigit19 c <;> simp [List.find?, h]
  | a :: b :: rest => simp

/-- C3: `parseDigitFromText` applies the three strategies of the spec in
strict priority order, first success wins; it returns `none` when the trimmed
text is empty; and on the spec's distinguished examples it gives
`"l5" ↦ 5`, `"" ↦ none`, `"@#$%" ↦ none`. -/
theorem C3_parseDigitFromText_strategies :
    (∀ text : List Char,
      parseDigitFromText text =
        ((specStrategy1 (jsTrim text)).orElse fun _ =>
          (specStrategy2 (jsTrim text)).orElse fun _ =>
            specStrategy3 (jsTrim text)) ∧
      (jsTrim text = [] → parseDigitFromText text = none)) ∧
    parseDigitFromText ['l', '5'] = some 5 ∧
    parseDigitFromText [] = none ∧
    parseDigitFromText ['@', '#', '$', '%'] = none := by
  refine ⟨fun text => ⟨?_, ?_⟩, by decide, by decide, by decide⟩
  · unfold parseDigitFromText
    match h : jsTrim text with
    | [] => simp [specStrategy1, parseRest_eq_strategies, Option.orElse]
    | [c] =>
      by_cases hc : isDigit19 c
      · simp [specStrategy1, hc, Option.orElse, specStrategy2, List.find?,
          digitVal]
      · simp [specStrategy1, hc, Option.orElse, parseRest_eq_strategies]
    | a :: b :: rest => simp [specStrategy1, Option.orElse, parseRest_eq_strategies]
  · intro h
    unfold parseDigitFromText
    rw [h]
    simp [parseRest, List.find?, List.findSome?]

/-- Witness for C3: the empty-trim hypothesis discharged on the whitespace
string `" "`. -/
theorem C3_witness : parseDigitFromText [' '] = none :=
  (C3_parseDigitFromText_strategies.1 [' ']).2 (by decide)

/-! ## Theorems: C7 (squarifyRectangle) -/

/-- C7: `squarifyRectangle` returns a square of size
`min (right-left) (bottom-top)`; the excess of the longer dimension is
halved (flooring) and added to that dimension's starting coordinate while
the other coordinate is unchanged; and the spec's two examples hold. -/
theorem C7_squarifyRectangle :
    (∀ rect : Rectangle,
      (squarifyRectangle rect).size =
          min (rect.right - rect.left) (rect.bottom - rect.top) ∧
      (rect.right - rect.left ≤ rect.bottom - rect.top →
        (squarifyRectangle rect).x = rect.left ∧
        (squarifyRectangle rect).y =
          rect.top + Int.fdiv (rect.bottom - rect.top - (squarifyRectangle rect).size) 2) ∧
      (rect.bottom - rect.top ≤ rect.right - rect.left →
        (squarifyRectangle rect).y = rect.top ∧
        (squarifyRectangle rect).x =
          rect.left + Int.fdiv (rect.right - rect.left - (squarifyRectangle rect).size) 2)) ∧
    squarifyRectangle ⟨0, 0, 200, 100⟩ = ⟨50, 0, 100⟩ ∧
    squarifyRectangle ⟨10, 10, 110, 110⟩ = ⟨10, 10, 100⟩ := by
  refine ⟨fun rect => ⟨rfl, fun hle => ⟨?_, rfl⟩, fun hle => ⟨?_, rfl⟩⟩,
    by decide, by decide⟩
  · show rect.left + Int.fdiv (rect.right - rect.left -
        min (rect.right - rect.left) (rect.bottom - rect.top)) 2 = rect.left
    rw [min_eq_left hle]
    simp [Int.fdiv]
  · show rect.top + Int.fdiv (rect.bottom - rect.top -
        min (rect.right - rect.left) (rect.bottom - rect.top)) 2 = rect.top
    rw [min_eq_right hle]
    simp [Int.fdiv]

/-- Witness for C7: the wide-rectangle branch discharged on the spec's
`{left:0, top:0, right:200, bottom:100}` example. -/
theorem C7_witness :
    (squarifyRectangle ⟨0, 0, 200, 100⟩).y = (0 : ℤ) ∧
    (squarifyRectangle ⟨0, 0, 200, 100⟩).x =
      0 + Int.fdiv (200 - 0 - (squarifyRectangle ⟨0, 0, 200, 100⟩).size) 2 :=
  ((C7_squarifyRectangle.1 ⟨0, 0, 200, 100⟩).2.2 (by decide))

/-! ## Theorems: C8 (binarize idempotence) -/

theorem lumaQ_nonneg (r g b : ℕ) : 0 ≤ lumaQ r g b := by
  unfold lumaQ
  positivity

theorem lumaQ_mono {r g b r' g' b' : ℕ} (hr : r ≤ r') (hg : g ≤ g') (hb : b ≤ b') :
    lumaQ r g b ≤ lumaQ r' g' b' := by
  unfold lumaQ
  apply div_le_div_of_nonneg_right ?_ (by norm_num) |>.trans_eq rfl
  have hr' : (r : ℚ) ≤ r' := by exact_mod_cast hr
  have hg' : (g : ℚ) ≤ g' := by exact_mod_cast hg
  have hb' : (b : ℚ) ≤ b' := by exact_mod_cast hb
  push_cast
  nlinarith

theorem lumaQ_le_255 {r g b : ℕ} (hr : r ≤ 255) (hg : g ≤ 255) (hb : b ≤ 255) :
    lumaQ r g b ≤ 255 := by
  have h := lumaQ_mono hr hg hb
  have : lumaQ 255 255 255 = 255 := by unfold lumaQ; norm_num
  rw [this] at h
  exact h

/-- One binarization pass maps each produced color value back to itself under
a second pass (the missing channels of a ragged trailing chunk read as `b₂`,
`g₂` below, which are the already-binarized value or the default 0). -/
theorem binarize_value_stable {r g b gm bm : ℕ} (t : ℚ)
    (hr : r ≤ 255) (hg : g ≤ 255) (hb : b ≤ 255)
    (hgm : gm = (if lumaQ r g b < t then 0 else 255) ∨ (gm = 0 ∧ g = 0))
    (hbm : bm = (if lumaQ r g b < t then 0 else 255) ∨ (bm = 0 ∧ b = 0)) :
    (if lumaQ (if lumaQ r g b < t then 0 else 255) gm bm < t then (0 : ℕ) else 255) =
      (if lumaQ r g b < t then 0 else 255) := by
  by_cases h : lumaQ r g b < t
  · simp only [h, if_true] at hgm hbm ⊢
    have hgm0 : gm = 0 := by rcases hgm with h' | h' <;> [exact h'; exact h'.1]
    have hbm0 : bm = 0 := by rcases hbm with h' | h' <;> [exact h'; exact h'.1]
    subst hgm0; subst hbm0
    have h0 : lumaQ 0 0 0 < t := by
      have : lumaQ 0 0 0 = 0 := by unfold lumaQ; norm_num
      rw [this]
      exact lt_of_le_of_lt (lumaQ_nonneg r g b) h
    simp [h0]
  · simp only [h, if_false] at hgm hbm ⊢
    have hmax : ¬ lumaQ 255 gm bm < t := by
      intro hc
      apply h
      refine lt_of_le_of_lt ?_ hc
      refine lumaQ_mono hr ?_ ?_
      · rcases hgm with h' | h'
        · rw [h']; exact hg
        · rw [h'.2, h'.1]
      · rcases hbm with h' | h'
        · rw [h']; exact hb
        · rw [h'.2, h'.1]
    simp [hmax]

theorem binarizeRun_idem (t : ℚ) :
    ∀ l : List ℕ, (∀ v ∈ l, v ≤ 255) →
      binarizeRun t (binarizeRun t l) = binarizeRun t l
  | r :: g :: b :: a :: rest, hb => by
    have hr := hb r (by simp)
    have hg := hb g (by simp)
    have hbb := hb b (by simp)
    have ih := binarizeRun_idem t rest (fun v hv => hb v (by simp [hv]))
    simp only [binarizeRun]
    rw [binarize_value_stable t hr hg hbb (Or.inl rfl) (Or.inl rfl), ih]
  | [r, g, b], hb => by
    have hr := hb r (by simp)
    have hg := hb g (by simp)
    have hbb := hb b (by simp)
    simp only [binarizeRun]
    rw [binarize_value_stable t hr hg hbb (Or.inl rfl) (Or.inl rfl)]
  | [r, g], hb => by
    have hr := hb r (by simp)
    have hg := hb g (by simp)
    simp only [binarizeRun]
    rw [binarize_value_stable t hr hg (Nat.zero_le 255) (Or.inl rfl) (Or.inr ⟨rfl, rfl⟩)]
  | [r], hb => by
    have hr := hb r (by simp)
    simp only [binarizeRun]
    rw [binarize_value_stable t hr (Nat.zero_le 255) (Nat.zero_le 255)
      (Or.inr ⟨rfl, rfl⟩) (Or.inr ⟨rfl, rfl⟩)]
  | [], _ => rfl

/-- C8: binarization is idempotent — on a buffer of bytes (values ≤ 255),
re-running `binarize` with the same threshold returns an identical buffer. -/
theorem C8_binarize_idempotent (img : ImageDataLike) (t : ℚ)
    (hbytes : ∀ v ∈ img.data, v ≤ 255) :
    binarize (binarize img t) t = binarize img t := by
  unfold binarize
  simp only [ImageDataLike.mk.injEq]
  exact ⟨binarizeRun_idem t img.data hbytes, trivial, trivial⟩

/-- Witness for C8 at a concrete 1×1 gray pixel with the default
threshold 160. -/
theorem C8_witness :
    binarize (binarize ⟨[100, 100, 100, 255], 1, 1⟩ 160) 160 =
      binarize ⟨[100, 100, 100, 255], 1, 1⟩ 160 :=
  C8_binarize_idempotent ⟨[100, 100, 100, 255], 1, 1⟩ 160 (by decide)

/-! ## Index bookkeeping for row-major buffers -/

theorem getD_map_range {α : Type} (f : ℕ → α) {n i : ℕ} (h : i < n) (d : α) :
    ((List.range n).map f).getD i d = f i := by
  rw [List.getD_eq_getElem?_getD, List.getElem?_map, List.getElem?_range h]
  rfl

theorem rowcol_mod {x : ℕ} (y : ℕ) {w : ℕ} (hx : x < w) : (y * w + x) % w = x := by
  rw [Nat.add_comm, Nat.add_mul_mod_self_right, Nat.mod_eq_of_lt hx]

theorem rowcol_div {x : ℕ} (y : ℕ) {w : ℕ} (hx : x < w) : (y * w + x) / w = y := by
  rw [Nat.add_comm, Nat.add_mul_div_right _ _ (by omega : 0 < w),
    Nat.div_eq_of_lt hx, Nat.zero_add]

theorem rowcol_lt {x y w h : ℕ} (hx : x < w) (hy : y < h) : y * w + x < w * h := by
  calc y * w + x < y * w + w := Nat.add_lt_add_left hx _
  _ = (y + 1) * w := by ring
  _ ≤ h * w := Nat.mul_le_mul_right w hy
  _ = w * h := Nat.mul_comm h w

/-! ## Theorems: C2 (gaussianBlur) -/

/-- Counterexample for C2 as stated: on the 1×1 image `[5]` the (border)
pixel is **not** left at its original value 5 — the source allocates a
zero-filled output and never writes border pixels, so the result is `[0]`.
This also falsifies the claimed uniform-image preservation at borders. -/
theorem C2_counterexample :
    gaussianBlur [5] 1 1 = [0] ∧ (5 : ℕ) ≠ 0 := by
  constructor
  · rfl
  · decide

/-- The 3×3 kernel accumulation, written out term by term. -/
theorem blurSum_expand (gray : List ℕ) (w x y : ℕ) :
    blurSum gray w x y =
      gray.getD ((y - 1) * w + (x - 1)) 0 + 2 * gray.getD ((y - 1) * w + x) 0 +
      gray.getD ((y - 1) * w + (x + 1)) 0 + 2 * gray.getD (y * w + (x - 1)) 0 +
      4 * gray.getD (y * w + x) 0 + 2 * gray.getD (y * w + (x + 1)) 0 +
      gray.getD ((y + 1) * w + (x - 1)) 0 + 2 * gray.getD ((y + 1) * w + x) 0 +
      gray.getD ((y + 1) * w + (x + 1)) 0 := by
  unfold blurSum blurKernel
  simp only [List.range_succ, List.range_zero, List.map_append, List.map_cons,
    List.map_nil, List.sum_append, List.sum_cons, List.sum_nil,
    List.nil_append, List.cons_append]
  norm_num
  ring

/-- C2, amended: `gaussianBlur` returns a `w*h` buffer whose **border pixels
are 0** (not the original input values); interior pixels are the floor of
the 3×3 weighted average with kernel `[1,2,1,2,4,2,1,2,1]` normalized
by 16; consequently a uniform input is reproduced at interior pixels while
border pixels become 0. -/
theorem C2_gaussianBlur_amended (gray : List ℕ) (w h : ℕ) :
    (gaussianBlur gray w h).length = w * h ∧
    (∀ x y, x < w → y < h → (x = 0 ∨ y = 0 ∨ x + 1 = w ∨ y + 1 = h) →
      (gaussianBlur gray w h).getD (y * w + x) 0 = 0) ∧
    (∀ x y, 1 ≤ x → x + 1 < w → 1 ≤ y → y + 1 < h →
      (gaussianBlur gray w h).getD (y * w + x) 0 =
        (gray.getD ((y - 1) * w + (x - 1)) 0 + 2 * gray.getD ((y - 1) * w + x) 0 +
         gray.getD ((y - 1) * w + (x + 1)) 0 + 2 * gray.getD (y * w + (x - 1)) 0 +
         4 * gray.getD (y * w + x) 0 + 2 * gray.getD (y * w + (x + 1)) 0 +
         gray.getD ((y + 1) * w + (x - 1)) 0 + 2 * gray.getD ((y + 1) * w + x) 0 +
         gray.getD ((y + 1) * w + (x + 1)) 0) / 16) ∧
    (∀ v, (∀ i, i < w * h → gray.getD i 0 = v) →
      ∀ x y, 1 ≤ x → x + 1 < w → 1 ≤ y → y + 1 < h →
        (gaussianBlur gray w h).getD (y * w + x) 0 = v) := by
  refine ⟨by simp [gaussianBlur], ?_, ?_, ?_⟩
  · intro x y hx hy hborder
    unfold gaussianBlur
    rw [getD_map_range _ (rowcol_lt hx hy) 0]
    simp only [rowcol_mod y hx, rowcol_div y hx]
    rw [if_neg]
    omega
  · intro x y hx1 hxw hy1 hyh
    have hx : x < w := by omega
    have hy : y < h := by omega
    unfold gaussianBlur
    rw [getD_map_range _ (rowcol_lt hx hy) 0]
    simp only [rowcol_mod y hx, rowcol_div y hx]
    rw [if_pos ⟨hx1, hxw, hy1, hyh⟩, blurSum_expand gray w x y]
  · intro v huni x y hx1 hxw hy1 hyh
    have hx : x < w := by omega
    have hy : y < h := by omega
    unfold gaussianBlur
    rw [getD_map_range _ (rowcol_lt hx hy) 0]
    simp only [rowcol_mod y hx, rowcol_div y hx]
    rw [if_pos ⟨hx1, hxw, hy1, hyh⟩, blurSum_expand gray w x y]
    have hread : ∀ x' y', x' < w → y' < h → gray.getD (y' * w + x') 0 = v :=
      fun x' y' hx' hy' => huni _ (rowcol_lt hx' hy')
    rw [hread (x - 1) (y - 1) (by omega) (by omega),
      hread x (y - 1) (by omega) (by omega),
      hread (x + 1) (y - 1) (by omega) (by omega),
      hread (x - 1) y (by omega) (by omega),
      hread x y (by omega) (by omega),
      hread (x + 1) y (by omega) (by omega),
      hread (x - 1) (y + 1) (by omega) (by omega),
      hread x (y + 1) (by omega) (by omega),
      hread (x + 1) (y + 1) (by omega) (by omega)]
    have : v + 2 * v + v + 2 * v + 4 * v + 2 * v + v + 2 * v + v = 16 * v := by ring
    rw [this, Nat.mul_div_cancel_left v (by norm_num)]

/-- Witness for C2 (amended), on a uniform 3×3 image of value 7: the single
interior pixel keeps the value 7. -/
theorem C2_witness :
    (gaussianBlur [7, 7, 7, 7, 7, 7, 7, 7, 7] 3 3).getD (1 * 3 + 1) 0 = 7 :=
  (C2_gaussianBlur_amended [7, 7, 7, 7, 7, 7, 7, 7, 7] 3 3).2.2.2 7
    (by decide) 1 1 (by decide) (by decide) (by decide) (by decide)

/-! ## Theorems: C10 (frame effects of the cell-conditioning transforms) -/

theorem binarizeRun_length (t : ℚ) :
    ∀ l : List ℕ, (binarizeRun t l).length = l.length
  | _ :: _ :: _ :: _ :: rest => by
    simp only [binarizeRun, List.length_cons]
    rw [binarizeRun_length t rest]
  | [_, _, _] => rfl
  | [_, _] => rfl
  | [_] => rfl
  | [] => rfl

theorem binarizeRun_alpha (t : ℚ) :
    ∀ (l : List ℕ) (p : ℕ),
      (binarizeRun t l).getD (4 * p + 3) 0 = l.getD (4 * p + 3) 0
  | r :: g :: b :: a :: rest, p => by
    match p with
    | 0 => simp [binarizeRun]
    | q + 1 =>
      have h : 4 * (q + 1) + 3 = (4 * q + 3) + 4 := by ring
      rw [h]
      simp only [binarizeRun, List.getD_cons_succ]
      exact binarizeRun_alpha t rest q
  | [r, g, b], p => by
    have h1 : (3 : ℕ) ≤ 4 * p + 3 := by omega
    rw [List.getD_eq_default _ _ (by simpa [binarizeRun] using h1),
      List.getD_eq_default _ _ (by simpa using h1)]
  | [r, g], p => by
    have h1 : (2 : ℕ) ≤ 4 * p + 3 := by omega
    rw [List.getD_eq_default _ _ (by simpa [binarizeRun] using h1),
      List.getD_eq_default _ _ (by simpa using h1)]
  | [r], p => by
    have h1 : (1 : ℕ) ≤ 4 * p + 3 := by omega
    rw [List.getD_eq_default _ _ (by simpa [binarizeRun] using h1),
      List.getD_eq_default _ _ (by simpa using h1)]
  | [], p => rfl

/-- C10: each cell-conditioning transform returns a buffer with the same
width, height and data length as its input, and with every alpha byte
(channel 3 of each pixel) equal to the input's. -/
theorem C10_frame_effects (img : ImageDataLike) (factor t : ℚ) :
    ((enhanceContrast img factor).width = img.width ∧
     (enhanceContrast img factor).height = img.height ∧
     (enhanceContrast img factor).data.length = img.data.length ∧
     ∀ p : ℕ, (enhanceContrast img factor).data.getD (4 * p + 3) 0 =
       img.data.getD (4 * p + 3) 0) ∧
    ((binarize img t).width = img.width ∧
     (binarize img t).height = img.height ∧
     (binarize img t).data.length = img.data.length ∧
     ∀ p : ℕ, (binarize img t).data.getD (4 * p + 3) 0 =
       img.data.getD (4 * p + 3) 0) ∧
    ((dilate img).width = img.width ∧
     (dilate img).height = img.height ∧
     (dilate img).data.length = img.data.length ∧
     ∀ p : ℕ, (dilate img).data.getD (4 * p + 3) 0 =
       img.data.getD (4 * p + 3) 0) := by
  refine ⟨⟨rfl, rfl, by simp [enhanceContrast], fun p => ?_⟩,
    ⟨rfl, rfl, binarizeRun_length t img.data, fun p => binarizeRun_alpha t img.data p⟩,
    ⟨rfl, rfl, by simp [dilate], fun p => ?_⟩⟩
  · by_cases hlt : 4 * p + 3 < img.data.length
    · show ((List.range img.data.length).map _).getD (4 * p + 3) 0 = _
      rw [getD_map_range _ hlt 0]
      have hmod : (4 * p + 3) % 4 = 3 := by omega
      simp only [hmod, if_true, eq_self_iff_true]
    · rw [List.getD_eq_default _ _ (by simpa [enhanceContrast] using Nat.le_of_not_lt hlt),
        List.getD_eq_default _ _ (Nat.le_of_not_lt hlt)]
  · by_cases hlt : 4 * p + 3 < img.data.length
    · show ((List.range img.data.length).map _).getD (4 * p + 3) 0 = _
      rw [getD_map_range _ hlt 0]
      have hmod : ¬ ((4 * p + 3) % 4 ≤ 2) := by omega
      simp only []
      rw [if_neg (by intro hc; exact hmod hc.1)]
    · rw [List.getD_eq_default _ _ (by simpa [dilate] using Nat.le_of_not_lt hlt),
        List.getD_eq_default _ _ (Nat.le_of_not_lt hlt)]

/-! ## Theorems: C9 (dilate) -/

/-- 3×3 test cell for C9: all pixels white except the center pixel, whose
red channel is 0 but whose luma `lumaQ 0 255 255 = 178.755` is well above
128. -/
def testCellC9 : ImageDataLike :=
  ⟨[255, 255, 255, 255, 255, 255, 255, 255, 255, 255, 255, 255,
    255, 255, 255, 255, 0, 255, 255, 255, 255, 255, 255, 255,
    255, 255, 255, 255, 255, 255, 255, 255, 255, 255, 255, 255], 3, 3⟩

/-- Counterexample for C9 as stated: in `testCellC9` every pixel's luma is
at least 128 (all pixels give `lumaQ 255 255 255 = 255` except the center's
`lumaQ 0 255 255 = 178.755`), so the claim requires `dilate` to leave the
buffer unchanged; but the source tests the **red** channel (`data[idx]`)
against 128, not luma, so the center pixel (green byte, index 17) is
blackened. -/
theorem C9_counterexample :
    (dilate testCellC9).data.getD 17 0 = 0 ∧
    testCellC9.data.getD 17 0 = 255 ∧
    (128 : ℚ) ≤ lumaQ 0 255 255 ∧ (128 : ℚ) ≤ lumaQ 255 255 255 := by
  refine ⟨by decide, by decide, ?_, ?_⟩
  · unfold lumaQ; norm_num
  · unfold lumaQ; norm_num

theorem hasDarkNeighbor_iff (data : List ℕ) (w x y : ℕ) :
    hasDarkNeighbor data w x y = true ↔
      ∃ dy, dy < 3 ∧ ∃ dx, dx < 3 ∧
        data.getD (((y + dy - 1) * w + (x + dx - 1)) * 4) 0 < 128 := by
  unfold hasDarkNeighbor
  simp [List.any_eq_true, List.mem_range]

theorem getD_mem_of_lt {l : List ℕ} {i : ℕ} (h : i < l.length) :
    l.getD i 0 ∈ l := by
  rw [List.getD_eq_getElem l 0 h]
  exact List.getElem_mem h

/-- C9, amended: `dilate` blackens the three color channels of an interior
pixel exactly when some pixel of its 3×3 neighbourhood has its **red
channel** (not its luma) below 128; every other byte — border pixels and
all alpha bytes — keeps its original value; and on an all-white buffer the
output equals the input. -/
theorem C9_dilate_amended (img : ImageDataLike)
    (hlen : img.data.length = 4 * (img.width * img.height)) :
    (∀ x y c, x < img.width → y < img.height → c < 4 →
      ((c ≤ 2 ∧ 1 ≤ x ∧ x + 1 < img.width ∧ 1 ≤ y ∧ y + 1 < img.height ∧
          (∃ dy, dy < 3 ∧ ∃ dx, dx < 3 ∧
            img.data.getD (((y + dy - 1) * img.width + (x + dx - 1)) * 4) 0 < 128) →
        pixelAt (dilate img) x y c = 0) ∧
       (¬ (c ≤ 2 ∧ 1 ≤ x ∧ x + 1 < img.width ∧ 1 ≤ y ∧ y + 1 < img.height ∧
          (∃ dy, dy < 3 ∧ ∃ dx, dx < 3 ∧
            img.data.getD (((y + dy - 1) * img.width + (x + dx - 1)) * 4) 0 < 128)) →
        pixelAt (dilate img) x y c = pixelAt img x y c))) ∧
    ((∀ v ∈ img.data, v = 255) → (dilate img).data = img.data) := by
  constructor
  · intro x y c hx hy hc
    have hpix : y * img.width + x < img.width * img.height := rowcol_lt hx hy
    have hi : (y * img.width + x) * 4 + c < img.data.length := by
      rw [hlen]; omega
    have hiff := hasDarkNeighbor_iff img.data img.width x y
    have hdiv : ((y * img.width + x) * 4 + c) / 4 = y * img.width + x := by omega
    have hmod : ((y * img.width + x) * 4 + c) % 4 = c := by omega
    constructor
    · rintro ⟨h1, h2, h3, h4, h5, h6⟩
      unfold pixelAt dilate
      simp only []
      rw [getD_map_range _ hi 0]
      simp only [hdiv, hmod, rowcol_mod y hx, rowcol_div y hx]
      rw [if_pos ⟨h1, h2, h3, h4, h5, hiff.mpr h6⟩]
    · intro hnc
      unfold pixelAt dilate
      simp only []
      rw [getD_map_range _ hi 0]
      simp only [hdiv, hmod, rowcol_mod y hx, rowcol_div y hx]
      rw [if_neg fun hcond => hnc ⟨hcond.1, hcond.2.1, hcond.2.2.1,
        hcond.2.2.2.1, hcond.2.2.2.2.1, hiff.mp hcond.2.2.2.2.2⟩]
  · intro hwhite
    have hlen2 : (dilate img).data.length = img.data.length := by simp [dilate]
    apply List.ext_getElem hlen2
    intro i hi1 hi2
    simp only [dilate] at hi1 ⊢
    rw [List.getElem_map]
    simp only [List.getElem_range]
    rw [if_neg, List.getD_eq_getElem img.data 0 hi2]
    rintro ⟨-, hx1, hxw, hy1, hyh, hdark⟩
    rw [hasDarkNeighbor_iff] at hdark
    obtain ⟨dy, hdy, dx, hdx, hlt⟩ := hdark
    set X := i / 4 % img.width with hX
    set Y := i / 4 / img.width with hY
    have hxw2 : X + dx - 1 < img.width := by omega
    have hyh2 : Y + dy - 1 < img.height := by omega
    have hread : ((Y + dy - 1) * img.width + (X + dx - 1)) * 4 < img.data.length := by
      have := rowcol_lt hxw2 hyh2
      rw [hlen]; omega
    have := hwhite _ (getD_mem_of_lt hread)
    omega

/-- Witness for C9 (amended): on an all-white 2×2 buffer, `dilate` returns
its input unchanged. -/
theorem C9_witness :
    (dilate ⟨[255, 255, 255, 255, 255, 255, 255, 255,
              255, 255, 255, 255, 255, 255, 255, 255], 2, 2⟩).data =
      ([255, 255, 255, 255, 255, 255, 255, 255,
        255, 255, 255, 255, 255, 255, 255, 255] : List ℕ) :=
  (C9_dilate_amended ⟨[255, 255, 255, 255, 255, 255, 255, 255,
    255, 255, 255, 255, 255, 255, 255, 255], 2, 2⟩ (by decide)).2 (by decide)

/-! ## Theorems: C6 (cannyEdgeDetection) -/

theorem foldl_max_init_le (f : ℕ → ℤ) :
    ∀ (l : List ℕ) (a : ℤ), a ≤ l.foldl (fun m i => max m (f i)) a
  | [], a => le_refl a
  | i :: rest, a =>
    le_trans (le_max_left a (f i)) (foldl_max_init_le f rest (max a (f i)))

theorem foldl_max_mem_le (f : ℕ → ℤ) :
    ∀ (l : List ℕ) (a : ℤ) (i : ℕ), i ∈ l →
      f i ≤ l.foldl (fun m i => max m (f i)) a
  | j :: rest, a, i, hmem => by
    rcases List.mem_cons.mp hmem with h | h
    · subst h
      exact le_trans (le_max_right a (f i)) (foldl_max_init_le f rest _)
    · exact foldl_max_mem_le f rest _ i h

theorem foldl_max_le (f : ℕ → ℤ) :
    ∀ (l : List ℕ) (a c : ℤ), (∀ i ∈ l, f i ≤ c) → a ≤ c →
      l.foldl (fun m i => max m (f i)) a ≤ c
  | [], a, c, _, ha => ha
  | j :: rest, a, c, hf, ha =>
    foldl_max_le f rest _ c (fun i hi => hf i (List.mem_cons_of_mem j hi))
      (max_le ha (hf j (List.mem_cons_self j rest)))

theorem magSq_nonneg (gray : List ℕ) (w h i : ℕ) : 0 ≤ magSq gray w h i := by
  unfold magSq
  dsimp only
  split
  · positivity
  · exact le_refl 0

theorem maxMagSq_nonneg (gray : List ℕ) (w h : ℕ) : 0 ≤ maxMagSq gray w h :=
  foldl_max_init_le _ _ 0

theorem magSq_le_maxMagSq (gray : List ℕ) (w h : ℕ) {i : ℕ} (hi : i < w * h) :
    magSq gray w h i ≤ maxMagSq gray w h :=
  foldl_max_mem_le _ _ 0 i (List.mem_range.mpr hi)

/-- `sqrt(magSq) > 0.2 * sqrt(maxMagSq)` is equivalent to the squared
comparison the embedding computes. -/
theorem sqrt_div5_lt_sqrt_iff {a b : ℤ} (ha : 0 ≤ a) (hb : 0 ≤ b) :
    Real.sqrt (b : ℝ) / 5 < Real.sqrt (a : ℝ) ↔ b < 25 * a := by
  have hbR : (0 : ℝ) ≤ (b : ℝ) := by exact_mod_cast hb
  have h25 : Real.sqrt ((b : ℝ) / 25) = Real.sqrt (b : ℝ) / 5 := by
    rw [Real.sqrt_div hbR 25, show (25 : ℝ) = 5 ^ 2 by norm_num,
      Real.sqrt_sq (by norm_num : (0 : ℝ) ≤ 5)]
  rw [← h25, Real.sqrt_lt_sqrt_iff (by positivity),
    div_lt_iff (by norm_num : (0 : ℝ) < 25)]
  constructor
  · intro hlt
    exact_mod_cast hlt.trans_eq (mul_comm _ _)
  · intro hlt
    have : (b : ℝ) < 25 * (a : ℝ) := by exact_mod_cast hlt
    exact this.trans_eq (mul_comm _ _)

theorem sobelGx_zero_of_uniform (gray : List ℕ) (w h : ℕ) (v : ℕ)
    (huni : ∀ i, i < w * h → gray.getD i 0 = v) (x y : ℕ)
    (hx1 : 1 ≤ x) (hxw : x + 1 < w) (hy1 : 1 ≤ y) (hyh : y + 1 < h) :
    sobelGx gray w x y = 0 := by
  have hread : ∀ x' y', x' < w → y' < h → gray.getD (y' * w + x') 0 = v :=
    fun x' y' hx' hy' => huni _ (rowcol_lt hx' hy')
  unfold sobelGx sobelX
  simp only [List.range_succ, List.range_zero, List.map_append, List.map_cons,
    List.map_nil, List.sum_append, List.sum_cons, List.sum_nil,
    List.nil_append, List.cons_append]
  norm_num
  simp only [List.getD_eq_getElem?_getD] at hread
  rw [hread (x - 1) (y - 1) (by omega) (by omega),
    hread (x + 1) (y - 1) (by omega) (by omega),
    hread (x - 1) y (by omega) (by omega),
    hread (x + 1) y (by omega) (by omega),
    hread (x - 1) (y + 1) (by omega) (by omega),
    hread (x + 1) (y + 1) (by omega) (by omega)]
  ring

theorem sobelGy_zero_of_uniform (gray : List ℕ) (w h : ℕ) (v : ℕ)
    (huni : ∀ i, i < w * h → gray.getD i 0 = v) (x y : ℕ)
    (hx1 : 1 ≤ x) (hxw : x + 1 < w) (hy1 : 1 ≤ y) (hyh : y + 1 < h) :
    sobelGy gray w x y = 0 := by
  have hread : ∀ x' y', x' < w → y' < h → gray.getD (y' * w + x') 0 = v :=
    fun x' y' hx' hy' => huni _ (rowcol_lt hx' hy')
  unfold sobelGy sobelY
  simp only [List.range_succ, List.range_zero, List.map_append, List.map_cons,
    List.map_nil, List.sum_append, List.sum_cons, List.sum_nil,
    List.nil_append, List.cons_append]
  norm_num
  simp only [List.getD_eq_getElem?_getD] at hread
  rw [hread (x - 1) (y - 1) (by omega) (by omega),
    hread x (y - 1) (by omega) (by omega),
    hread (x + 1) (y - 1) (by omega) (by omega),
    hread (x - 1) (y + 1) (by omega) (by omega),
    hread x (y + 1) (by omega) (by omega),
    hread (x + 1) (y + 1) (by omega) (by omega)]
  ring

theorem magSq_zero_of_uniform (gray : List ℕ) (w h : ℕ) (v : ℕ)
    (huni : ∀ i, i < w * h → gray.getD i 0 = v) (i : ℕ) :
    magSq gray w h i = 0 := by
  unfold magSq
  dsimp only
  split
  · next hcond =>
    obtain ⟨h1, h2, h3, h4, h5⟩ := hcond
    rw [sobelGx_zero_of_uniform gray w h v huni _ _ h2 h3 h4 h5,
      sobelGy_zero_of_uniform gray w h v huni _ _ h2 h3 h4 h5]
    norm_num
  · rfl

/-- C6: `cannyEdgeDetection` returns a `w*h` mask containing only 0 and 255;
a pixel is 255 exactly when its Sobel gradient magnitude `sqrt(gx²+gy²)`
strictly exceeds 20% of the maximum magnitude over the whole image
(`Real.sqrt maxMagSq / 5`); border pixels are always 0; and uniform inputs
give an all-zero mask. -/
theorem C6_cannyEdgeDetection (gray : List ℕ) (w h : ℕ) :
    (cannyEdgeDetection gray w h).length = w * h ∧
    (∀ i, (cannyEdgeDetection gray w h).getD i 0 = 0 ∨
      (cannyEdgeDetection gray w h).getD i 0 = 255) ∧
    (∀ i, i < w * h →
      ((cannyEdgeDetection gray w h).getD i 0 = 255 ↔
        Real.sqrt ((maxMagSq gray w h : ℤ) : ℝ) / 5 <
          Real.sqrt ((magSq gray w h i : ℤ) : ℝ))) ∧
    (∀ x y, x < w → y < h → (x = 0 ∨ y = 0 ∨ x + 1 = w ∨ y + 1 = h) →
      (cannyEdgeDetection gray w h).getD (y * w + x) 0 = 0) ∧
    (∀ v, (∀ i, i < w * h → gray.getD i 0 = v) →
      ∀ i, (cannyEdgeDetection gray w h).getD i 0 = 0) := by
  refine ⟨by simp [cannyEdgeDetection], ?_, ?_, ?_, ?_⟩
  · intro i
    by_cases hi : i < w * h
    · unfold cannyEdgeDetection
      rw [getD_map_range _ hi 0]
      split
      · right; rfl
      · left; rfl
    · left
      exact List.getD_eq_default _ _ (by simp [cannyEdgeDetection]; omega)
  · intro i hi
    unfold cannyEdgeDetection
    rw [getD_map_range _ hi 0]
    rw [sqrt_div5_lt_sqrt_iff (magSq_nonneg gray w h i) (maxMagSq_nonneg gray w h)]
    constructor
    · intro h255
      by_contra hng
      rw [if_neg (by omega)] at h255
      exact absurd h255 (by norm_num)
    · intro hlt
      rw [if_pos (by omega)]
  · intro x y hx hy hborder
    have hi : y * w + x < w * h := rowcol_lt hx hy
    unfold cannyEdgeDetection
    rw [getD_map_range _ hi 0]
    have hmag : magSq gray w h (y * w + x) = 0 := by
      unfold magSq
      dsimp only
      rw [if_neg]
      rintro ⟨-, h1, h2, h3, h4⟩
      rw [rowcol_mod y hx] at h1 h2
      rw [rowcol_div y hx] at h3 h4
      omega
    rw [hmag, if_neg (by have := maxMagSq_nonneg gray w h; omega)]
  · intro v huni i
    by_cases hi : i < w * h
    · unfold cannyEdgeDetection
      rw [getD_map_range _ hi 0]
      rw [magSq_zero_of_uniform gray w h v huni i,
        if_neg (by have := maxMagSq_nonneg gray w h; omega)]
    · exact List.getD_eq_default _ _ (by simp [cannyEdgeDetection]; omega)

/-- Witness for C6: on a uniform 3×3 input the mask is zero at the center
pixel, and the threshold equivalence holds there. -/
theorem C6_witness :
    (cannyEdgeDetection [9, 9, 9, 9, 9, 9, 9, 9, 9] 3 3).getD 4 0 = 0 :=
  (C6_cannyEdgeDetection [9, 9, 9, 9, 9, 9, 9, 9, 9] 3 3).2.2.2.2 9 (by decide) 4

/-! ## boardDetection.ts: line finding, grouping, and the three rectangle
strategies -/

/-- `Line` from `boardDetection.ts`. -/
structure Line where
  position : ℤ
  strength : ℚ
  deriving Repr, DecidableEq

/-- The `currentRun`/`maxRun` loop of `findHorizontalLines` for row `y`:
the longest run of positive entries. -/
def rowMaxRun (edges : List ℕ) (w y : ℕ) : ℕ :=
  ((List.range w).foldl (fun s x =>
    if 0 < edges.getD (y * w + x) 0 then (s.1 + 1, max s.2 (s.1 + 1))
    else (0, s.2)) ((0, 0) : ℕ × ℕ)).2

/-- The analogous loop of `findVerticalLines` for column `x`. -/
def colMaxRun (edges : List ℕ) (w h x : ℕ) : ℕ :=
  ((List.range h).foldl (fun s y =>
    if 0 < edges.getD (y * w + x) 0 then (s.1 + 1, max s.2 (s.1 + 1))
    else (0, s.2)) ((0, 0) : ℕ × ℕ)).2

/-- `findHorizontalLines`: rows whose longest edge run reaches
`minRunLength = width * 0.5`; strength is `maxRun / width`. -/
def findHorizontalLines (edges : List ℕ) (w h : ℕ) : List Line :=
  (List.range h).filterMap fun y =>
    if (w : ℚ) * (1 / 2) ≤ (rowMaxRun edges w y : ℚ) then
      some ⟨(y : ℤ), (rowMaxRun edges w y : ℚ) / w⟩
    else none

/-- `findVerticalLines`: columns, with `minRunLength = height * 0.5`. -/
def findVerticalLines (edges : List ℕ) (w h : ℕ) : List Line :=
  (List.range w).filterMap fun x =>
    if (h : ℚ) * (1 / 2) ≤ (colMaxRun edges w h x : ℚ) then
      some ⟨(x : ℤ), (colMaxRun edges w h x : ℚ) / h⟩
    else none

/-- One step of the `grouped` accumulation in `groupLines`: the first group
within `margin` of the incoming line absorbs it (keeping the stronger of
the two); with no nearby group the line is appended. -/
def insertLine (margin : ℚ) : List Line → Line → List Line
  | [], l => [l]
  | g :: rest, l =>
    if |(g.position : ℚ) - (l.position : ℚ)| < margin then
      (if l.strength > g.strength then l else g) :: rest
    else g :: insertLine margin rest l

/-- Stable ascending insertion by position (JS `Array.prototype.sort` with
comparator `a.position - b.position` is a stable ascending sort). -/
def insertSorted (a : Line) : List Line → List Line
  | [] => [a]
  | b :: rest =>
    if a.position ≤ b.position then a :: b :: rest
    else b :: insertSorted a rest

/-- Stable insertion sort by position. -/
def sortLines : List Line → List Line
  | [] => []
  | a :: rest => insertSorted a (sortLines rest)

/-- `groupLines` from `boardDetection.ts`. -/
def groupLines (lines : List Line) (margin : ℚ) : List Line :=
  sortLines (lines.foldl (insertLine margin) [])

/-- Ordered pairs `(l[i], l[j])` with `i < j`, in the nested-loop order of
`findRectangleFromLines`. -/
def orderedPairs {α : Type} : List α → List (α × α)
  | [] => []
  | a :: rest => (rest.map fun b => (a, b)) ++ orderedPairs rest

/-- All candidates of `findRectangleFromLines` in iteration order:
`(top,bottom)` pairs in the outer loops, `(left,right)` pairs in the inner
loops. -/
def rectCandidates (hLines vLines : List Line) :
    List ((Line × Line) × (Line × Line)) :=
  (orderedPairs hLines).flatMap fun hp =>
    (orderedPairs vLines).map fun vp => (hp, vp)

/-- The minimum-size filters of `findRectangleFromLines`: a candidate is
kept unless its height is below `height * 0.3` or its width below
`width * 0.3`. -/
def candOK (w h : ℕ) (c : (Line × Line) × (Line × Line)) : Bool :=
  decide (¬ ((c.1.2.position - c.1.1.position : ℤ) : ℚ) < (h : ℚ) * (3 / 10)) &&
  decide (¬ ((c.2.2.position - c.2.1.position : ℤ) : ℚ) < (w : ℚ) * (3 / 10))

/-- The candidate score of `findRectangleFromLines`:
`area * aspectRatio * squareBonus * boundaryPenalty`. -/
def candScore (w h : ℕ) (c : (Line × Line) × (Line × Line)) : ℚ :=
  let top := c.1.1.position
  let bottom := c.1.2.position
  let left := c.2.1.position
  let right := c.2.2.position
  let rectHeight := bottom - top
  let rectWidth := right - left
  let area : ℚ := ((rectWidth * rectHeight : ℤ) : ℚ)
  let aspectRatio : ℚ :=
    ((min rectWidth rectHeight : ℤ) : ℚ) / ((max rectWidth rectHeight : ℤ) : ℚ)
  let squareBonus : ℚ :=
    if aspectRatio > 9 / 10 then 5 / 2
    else if aspectRatio > 8 / 10 then 2
    else if aspectRatio > 7 / 10 then 3 / 2
    else 1
  let borderMargin : ℚ := ((min w h : ℕ) : ℚ) * (2 / 100)
  let boundaryPenalty : ℚ :=
    (if (top : ℚ) < borderMargin then 7 / 10 else 1) *
    (if (bottom : ℚ) > (h : ℚ) - borderMargin then 7 / 10 else 1) *
    (if (left : ℚ) < borderMargin then 8 / 10 else 1) *
    (if (right : ℚ) > (w : ℚ) - borderMargin then 8 / 10 else 1)
  area * aspectRatio * squareBonus * boundaryPenalty

/-- The running `bestScore` of the search: 0 while `bestRect` is null, the
best candidate's score afterwards. -/
def bestScoreOf (w h : ℕ) : Option ((Line × Line) × (Line × Line)) → ℚ
  | none => 0
  | some c => candScore w h c

/-- One iteration of the `bestRect`/`bestScore` update: filtered-out
candidates are skipped, a surviving candidate replaces the best exactly
when its score strictly exceeds the running best score. -/
def stepBest (w h : ℕ) (acc : Option ((Line × Line) × (Line × Line)))
    (c : (Line × Line) × (Line × Line)) :
    Option ((Line × Line) × (Line × Line)) :=
  if candOK w h c then
    (if candScore w h c > bestScoreOf w h acc then some c else acc)
  else acc

/-- The rectangle of a candidate (`{left, top, right, bottom}` as stored by
the source when the candidate wins). -/
def candRect (c : (Line × Line) × (Line × Line)) : Rectangle :=
  ⟨c.2.1.position, c.1.1.position, c.2.2.position, c.1.2.position⟩

/-- `findRectangleFromLines` from `boardDetection.ts` (the source carries
`bestRect` and `bestScore`; the fold carries the winning candidate, whose
rectangle and score those are). -/
def findRectangleFromLines (hLines vLines : List Line) (w h : ℕ) :
    Option Rectangle :=
  if hLines.length < 2 ∨ vLines.length < 2 then none
  else ((rectCandidates hLines vLines).foldl (stepBest w h) none).map candRect

/-- Row edge density `hDensity[y]` of `findRectangleLowThreshold` (reads
outside the array give the `safeGet` default 0). -/
def hDensity (edges : List ℕ) (w h : ℕ) (y : ℕ) : ℚ :=
  if y < h then
    (((List.range w).countP fun x => decide (0 < edges.getD (y * w + x) 0)) : ℚ) / w
  else 0

/-- The sustained-window test of the top scan at row `y`: density above
0.15 at `y` and more than `windowSize * 0.3` of the next `windowSize` rows
above density 0.1. -/
def lowThreshTopPred (edges : List ℕ) (w h ws y : ℕ) : Bool :=
  decide ((15 / 100 : ℚ) < hDensity edges w h y) &&
  decide ((ws : ℚ) * (3 / 10) <
    (((List.range ws).countP fun dy =>
      decide ((1 / 10 : ℚ) < hDensity edges w h (y + dy))) : ℚ))

/-- The sustained-window test of the bottom scan at row `y`; the inner loop
also stops at `y - dy ≤ bestTop`, and since `y - dy` is decreasing this is
the filter below. -/
def lowThreshBottomPred (edges : List ℕ) (w h ws bestTop y : ℕ) : Bool :=
  decide ((15 / 100 : ℚ) < hDensity edges w h y) &&
  decide ((ws : ℚ) * (3 / 10) <
    ((((List.range ws).filter fun dy => decide (bestTop < y - dy)).countP
      fun dy => decide ((1 / 10 : ℚ) < hDensity edges w h (y - dy))) : ℚ))

/-- The top scan: first `y` in `[0, h - ws)` passing the sustained test,
else the initial value 0. -/
def bestTopOf (edges : List ℕ) (w h ws : ℕ) : ℕ :=
  (((List.range (h - ws)).find? (lowThreshTopPred edges w h ws)).getD 0)

/-- The bottom scan: first `y` from `h-1` downward with `y > bestTop + ws`
passing the sustained test, else the initial value `h - 1`. -/
def bestBottomOf (edges : List ℕ) (w h ws bestTop : ℕ) : ℤ :=
  match ((List.range h).reverse.filter fun y => decide (bestTop + ws < y)).find?
      (lowThreshBottomPred edges w h ws bestTop) with
  | some y => (y : ℤ)
  | none => (h : ℤ) - 1

/-- Column edge density `vDensity[x]`, computed only within the found
`[bestTop, bestBottom]` band and divided by the band height. -/
def vDensity (edges : List ℕ) (w h bestTop : ℕ) (bestBottom : ℤ) (x : ℕ) : ℚ :=
  if x < w then
    ((((List.range h).filter fun y =>
        decide (bestTop ≤ y ∧ (y : ℤ) ≤ bestBottom)).countP
      fun y => decide (0 < edges.getD (y * w + x) 0)) : ℚ) /
      ((bestBottom - (bestTop : ℤ) + 1 : ℤ) : ℚ)
  else 0

/-- The sustained-window test of the left scan at column `x`. -/
def lowThreshLeftPred (edges : List ℕ) (w h bestTop : ℕ) (bestBottom : ℤ)
    (ws x : ℕ) : Bool :=
  decide ((15 / 100 : ℚ) < vDensity edges w h bestTop bestBottom x) &&
  decide ((ws : ℚ) * (3 / 10) <
    (((List.range ws).countP fun dx =>
      decide ((1 / 10 : ℚ) < vDensity edges w h bestTop bestBottom (x + dx))) : ℚ))

/-- The sustained-window test of the right scan at column `x`. -/
def lowThreshRightPred (edges : List ℕ) (w h bestTop : ℕ) (bestBottom : ℤ)
    (ws bestLeft x : ℕ) : Bool :=
  decide ((15 / 100 : ℚ) < vDensity edges w h bestTop bestBottom x) &&
  decide ((ws : ℚ) * (3 / 10) <
    ((((List.range ws).filter fun dx => decide (bestLeft < x - dx)).countP
      fun dx =>
        decide ((1 / 10 : ℚ) < vDensity edges w h bestTop bestBottom (x - dx))) : ℚ))

/-- The left scan: first `x` in `[0, w - ws)` passing the sustained test,
else 0. -/
def bestLeftOf (edges : List ℕ) (w h bestTop : ℕ) (bestBottom : ℤ) (ws : ℕ) : ℕ :=
  (((List.range (w - ws)).find?
    (lowThreshLeftPred edges w h bestTop bestBottom ws)).getD 0)

/-- The right scan: first `x` from `w-1` downward with `x > bestLeft + ws`
passing the sustained test, else `w - 1`. -/
def bestRightOf (edges : List ℕ) (w h bestTop : ℕ) (bestBottom : ℤ)
    (ws bestLeft : ℕ) : ℤ :=
  match ((List.range w).reverse.filter fun x => decide (bestLeft + ws < x)).find?
      (lowThreshRightPred edges w h bestTop bestBottom ws bestLeft) with
  | some x => (x : ℤ)
  | none => (w : ℤ) - 1

/-- `findRectangleLowThreshold` from `boardDetection.ts`
(`windowSize = Math.floor(height * 0.05) = h * 5 / 100` in Nat division). -/
def findRectangleLowThreshold (edges : List ℕ) (w h : ℕ) : Option Rectangle :=
  let ws := h * 5 / 100
  let bestTop := bestTopOf edges w h ws
  let bestBottom := bestBottomOf edges w h ws bestTop
  let bestLeft := bestLeftOf edges w h bestTop bestBottom ws
  let bestRight := bestRightOf edges w h bestTop bestBottom ws bestLeft
  if ((bestRight - (bestLeft : ℤ) : ℤ) : ℚ) < (w : ℚ) * (2 / 10) ∨
      ((bestBottom - (bestTop : ℤ) : ℤ) : ℚ) < (h : ℚ) * (2 / 10) then none
  else some ⟨(bestLeft : ℤ), (bestTop : ℤ), bestRight, bestBottom⟩

/-- Fraction of dark pixels (`intensity < 200`) in row `y`. -/
def rowDarkFrac (gray : List ℕ) (w : ℕ) (y : ℕ) : ℚ :=
  (((List.range w).countP fun x => decide (gray.getD (y * w + x) 0 < 200)) : ℚ) / w

/-- Fraction of dark pixels in column `x`. -/
def colDarkFrac (gray : List ℕ) (w h : ℕ) (x : ℕ) : ℚ :=
  (((List.range h).countP fun y => decide (gray.getD (y * w + x) 0 < 200)) : ℚ) / h

/-- `findRectangleDarkPixels` from `boardDetection.ts`: for each side, the
first row/column (scanning inward) with more than 10% dark pixels; the
bound stays at the image edge (`0`, or `height-1`/`width-1`) when no
row/column qualifies. -/
def findRectangleDarkPixels (gray : List ℕ) (w h : ℕ) : Rectangle :=
  let top : ℤ :=
    ((((List.range h).find? fun y =>
      decide ((1 / 10 : ℚ) < rowDarkFrac gray w y)).getD 0 : ℕ) : ℤ)
  let bottom : ℤ :=
    match (List.range h).reverse.find? fun y =>
        decide ((1 / 10 : ℚ) < rowDarkFrac gray w y) with
    | some y => (y : ℤ)
    | none => (h : ℤ) - 1
  let left : ℤ :=
    ((((List.range w).find? fun x =>
      decide ((1 / 10 : ℚ) < colDarkFrac gray w h x)).getD 0 : ℕ) : ℤ)
  let right : ℤ :=
    match (List.range w).reverse.find? fun x =>
        decide ((1 / 10 : ℚ) < colDarkFrac gray w h x) with
    | some x => (x : ℤ)
    | none => (w : ℤ) - 1
  ⟨left, top, right, bottom⟩

/-- `detectBoardRectangle` from `boardDetection.ts`: grayscale, blur, edge
detection, then the primary line-pair strategy with the density fallback
and the terminal dark-pixel fallback.  (The source maps each found line
through an identity copy before grouping; that copy is a no-op.) -/
def detectBoardRectangle (img : ImageDataLike) : Option Rectangle :=
  let gray := toGrayscale img
  let blurred := gaussianBlur gray img.width img.height
  let edges := cannyEdgeDetection blurred img.width img.height
  let margin : ℚ := ((min img.width img.height : ℕ) : ℚ) * (3 / 100)
  let hLines := groupLines (findHorizontalLines edges img.width img.height) margin
  let vLines := groupLines (findVerticalLines edges img.width img.height) margin
  match findRectangleFromLines hLines vLines img.width img.height with
  | some r => some r
  | none =>
    match findRectangleLowThreshold edges img.width img.height with
    | some r => some r
    | none => some (findRectangleDarkPixels gray img.width img.height)

/-! ## Characterizing first-hit scans (`find?` over index ranges) -/

theorem find?_decomp {α : Type} {p : α → Bool} :
    ∀ (l : List α) (a : α), l.find? p = some a →
      ∃ t₁ t₂, l = t₁ ++ a :: t₂ ∧ (∀ z ∈ t₁, p z = false) ∧ p a = true
  | b :: rest, a, hf => by
    by_cases hb : p b
    · rw [List.find?_cons_of_pos _ hb] at hf
      exact ⟨[], rest, by simpa using (Option.some_inj.mp hf).symm ▸ rfl,
        by simp, by simp [← Option.some_inj.mp hf, hb]⟩
    · rw [List.find?_cons_of_neg _ hb] at hf
      obtain ⟨t₁, t₂, hsplit, hfalse, htrue⟩ := find?_decomp rest a hf
      exact ⟨b :: t₁, t₂, by simp [hsplit], by
        intro z hz
        rcases List.mem_cons.mp hz with h | h
        · subst h; simpa using hb
        · exact hfalse z h, htrue⟩

theorem range_prefix_eq {h y : ℕ} {t₁ t₂ : List ℕ}
    (hs : List.range h = t₁ ++ y :: t₂) : t₁ = List.range y ∧ y < h := by
  have hlen : t₁.length < h := by
    have := congrArg List.length hs
    simp at this
    omega
  have h1 : (List.range h)[t₁.length]? = some y := by
    rw [hs, List.getElem?_append_right (le_refl t₁.length)]
    simp
  have h2 : (List.range h)[t₁.length]? = some t₁.length :=
    List.getElem?_range hlen
  have hy : y = t₁.length := by
    rw [h1] at h2
    exact Option.some_inj.mp h2
  have ht : t₁ = (List.range h).take t₁.length := by
    rw [hs, List.take_left]
  rw [List.take_range, Nat.min_eq_left (Nat.le_of_lt hlen)] at ht
  constructor
  · rw [hy]
    exact ht
  · rw [hy]
    exact hlen

theorem find?_range_some {p : ℕ → Bool} {h y : ℕ}
    (hf : (List.range h).find? p = some y) :
    y < h ∧ p y = true ∧ ∀ z, z < y → p z = false := by
  obtain ⟨t₁, t₂, hs, hfalse, htrue⟩ := find?_decomp _ _ hf
  obtain ⟨ht₁, hyh⟩ := range_prefix_eq hs
  exact ⟨hyh, htrue, fun z hz => hfalse z (ht₁ ▸ List.mem_range.mpr hz)⟩

theorem reverse_range_eq_map (h : ℕ) :
    (List.range h).reverse = (List.range h).map (fun i => h - 1 - i) := by
  conv_lhs => rw [List.range_eq_range']
  rw [List.reverse_range']
  simp

theorem find?_range_reverse_some {p : ℕ → Bool} {h y : ℕ}
    (hf : ((List.range h).reverse).find? p = some y) :
    y < h ∧ p y = true ∧ ∀ z, y < z → z < h → p z = false := by
  rw [reverse_range_eq_map, List.find?_map] at hf
  obtain ⟨j, hj, hyj⟩ := Option.map_eq_some'.mp hf
  obtain ⟨hjh, hpj, hearlier⟩ := find?_range_some hj
  have hy : y = h - 1 - j := hyj.symm
  refine ⟨by omega, by simpa [Function.comp, hy] using hpj, ?_⟩
  intro z hyz hzh
  have hz' : h - 1 - z < j := by omega
  have := hearlier (h - 1 - z) hz'
  have hzz : h - 1 - (h - 1 - z) = z := by omega
  simpa [Function.comp, hzz] using this

/-! ## Theorems: C1 (totality of board location; the dark-pixel scans) -/

/-- C1: `detectBoardRectangle` always returns a rectangle (never null) for
every image, because the terminal fallback `findRectangleDarkPixels` is
total; and the fallback's four scans each take the first row/column
(scanning inward) whose dark-pixel fraction exceeds 10%, leaving the bound
at the image edge (0 or `height-1`/`width-1`) when none qualifies. -/
theorem C1_detectBoardRectangle_total :
    (∀ img : ImageDataLike, (detectBoardRectangle img).isSome = true) ∧
    (∀ (gray : List ℕ) (w h : ℕ),
      ((∃ y, y < h ∧ (1 / 10 : ℚ) < rowDarkFrac gray w y ∧
          (∀ y', y' < y → ¬ (1 / 10 : ℚ) < rowDarkFrac gray w y') ∧
          (findRectangleDarkPixels gray w h).top = (y : ℤ)) ∨
        ((∀ y, y < h → ¬ (1 / 10 : ℚ) < rowDarkFrac gray w y) ∧
          (findRectangleDarkPixels gray w h).top = 0)) ∧
      ((∃ y, y < h ∧ (1 / 10 : ℚ) < rowDarkFrac gray w y ∧
          (∀ y', y < y' → y' < h → ¬ (1 / 10 : ℚ) < rowDarkFrac gray w y') ∧
          (findRectangleDarkPixels gray w h).bottom = (y : ℤ)) ∨
        ((∀ y, y < h → ¬ (1 / 10 : ℚ) < rowDarkFrac gray w y) ∧
          (findRectangleDarkPixels gray w h).bottom = (h : ℤ) - 1)) ∧
      ((∃ x, x < w ∧ (1 / 10 : ℚ) < colDarkFrac gray w h x ∧
          (∀ x', x' < x → ¬ (1 / 10 : ℚ) < colDarkFrac gray w h x') ∧
          (findRectangleDarkPixels gray w h).left = (x : ℤ)) ∨
        ((∀ x, x < w → ¬ (1 / 10 : ℚ) < colDarkFrac gray w h x) ∧
          (findRectangleDarkPixels gray w h).left = 0)) ∧
      ((∃ x, x < w ∧ (1 / 10 : ℚ) < colDarkFrac gray w h x ∧
          (∀ x', x < x' → x' < w → ¬ (1 / 10 : ℚ) < colDarkFrac gray w h x') ∧
          (findRectangleDarkPixels gray w h).right = (x : ℤ)) ∨
        ((∀ x, x < w → ¬ (1 / 10 : ℚ) < colDarkFrac gray w h x) ∧
          (findRectangleDarkPixels gray w h).right = (w : ℤ) - 1))) := by
  constructor
  · intro img
    unfold detectBoardRectangle
    dsimp only
    cases findRectangleFromLines
        (groupLines (findHorizontalLines
          (cannyEdgeDetection (gaussianBlur (toGrayscale img) img.width img.height)
            img.width img.height) img.width img.height)
          (((min img.width img.height : ℕ) : ℚ) * (3 / 100)))
        (groupLines (findVerticalLines
          (cannyEdgeDetection (gaussianBlur (toGrayscale img) img.width img.height)
            img.width img.height) img.width img.height)
          (((min img.width img.height : ℕ) : ℚ) * (3 / 100)))
        img.width img.height with
    | some r => rfl
    | none =>
      cases findRectangleLowThreshold
          (cannyEdgeDetection (gaussianBlur (toGrayscale img) img.width img.height)
            img.width img.height) img.width img.height with
      | some r => rfl
      | none => rfl
  · intro gray w h
    refine ⟨?_, ?_, ?_, ?_⟩
    · cases hfind : (List.range h).find? fun y =>
          decide ((1 / 10 : ℚ) < rowDarkFrac gray w y) with
      | some y =>
        obtain ⟨hyh, hpy, hearlier⟩ := find?_range_some hfind
        refine Or.inl ⟨y, hyh, of_decide_eq_true hpy, ?_, ?_⟩
        · intro y' hy'
          have := hearlier y' hy'
          simpa using this
        · show ((((List.range h).find? _).getD 0 : ℕ) : ℤ) = (y : ℤ)
          rw [hfind]
          rfl
      | none =>
        refine Or.inr ⟨?_, ?_⟩
        · intro y hy
          have := List.find?_eq_none.mp hfind y (List.mem_range.mpr hy)
          simpa using this
        · show ((((List.range h).find? _).getD 0 : ℕ) : ℤ) = 0
          rw [hfind]
          rfl
    · cases hfind : ((List.range h).reverse).find? fun y =>
          decide ((1 / 10 : ℚ) < rowDarkFrac gray w y) with
      | some y =>
        obtain ⟨hyh, hpy, hlater⟩ := find?_range_reverse_some hfind
        refine Or.inl ⟨y, hyh, of_decide_eq_true hpy, ?_, ?_⟩
        · intro y' hy1 hy2
          have := hlater y' hy1 hy2
          simpa using this
        · show (match ((List.range h).reverse).find? _ with
            | some y => (y : ℤ) | none => (h : ℤ) - 1) = (y : ℤ)
          rw [hfind]
      | none =>
        refine Or.inr ⟨?_, ?_⟩
        · intro y hy
          have := List.find?_eq_none.mp hfind y
            (by rw [List.mem_reverse]; exact List.mem_range.mpr hy)
          simpa using this
        · show (match ((List.range h).reverse).find? _ with
            | some y => (y : ℤ) | none => (h : ℤ) - 1) = (h : ℤ) - 1
          rw [hfind]
    · cases hfind : (List.range w).find? fun x =>
          decide ((1 / 10 : ℚ) < colDarkFrac gray w h x) with
      | some x =>
        obtain ⟨hxw, hpx, hearlier⟩ := find?_range_some hfind
        refine Or.inl ⟨x, hxw, of_decide_eq_true hpx, ?_, ?_⟩
        · intro x' hx'
          have := hearlier x' hx'
          simpa using this
        · show ((((List.range w).find? _).getD 0 : ℕ) : ℤ) = (x : ℤ)
          rw [hfind]
          rfl
      | none =>
        refine Or.inr ⟨?_, ?_⟩
        · intro x hx
          have := List.find?_eq_none.mp hfind x (List.mem_range.mpr hx)
          simpa using this
        · show ((((List.range w).find? _).getD 0 : ℕ) : ℤ) = 0
          rw [hfind]
          rfl
    · cases hfind : ((List.range w).reverse).find? fun x =>
          decide ((1 / 10 : ℚ) < colDarkFrac gray w h x) with
      | some x =>
        obtain ⟨hxw, hpx, hlater⟩ := find?_range_reverse_some hfind
        refine Or.inl ⟨x, hxw, of_decide_eq_true hpx, ?_, ?_⟩
        · intro x' hx1 hx2
          have := hlater x' hx1 hx2
          simpa using this
        · show (match ((List.range w).reverse).find? _ with
            | some x => (x : ℤ) | none => (w : ℤ) - 1) = (x : ℤ)
          rw [hfind]
      | none =>
        refine Or.inr ⟨?_, ?_⟩
        · intro x hx
          have := List.find?_eq_none.mp hfind x
            (by rw [List.mem_reverse]; exact List.mem_range.mpr hx)
          simpa using this
        · show (match ((List.range w).reverse).find? _ with
            | some x => (x : ℤ) | none => (w : ℤ) - 1) = (w : ℤ) - 1
          rw [hfind]

/-- Witness for C1: totality evaluated on a concrete 1×1 image. -/
theorem C1_witness :
    (detectBoardRectangle ⟨[255, 255, 255, 255], 1, 1⟩).isSome = true :=
  C1_detectBoardRectangle_total.1 ⟨[255, 255, 255, 255], 1, 1⟩

/-! ## Theorems: C4 (findRectangleFromLines selection semantics) -/

theorem two_splits {α : Type} {c b : α} :
    ∀ {pre post pre' post' : List α},
      pre ++ c :: post = pre' ++ b :: post' →
      (pre = pre' ∧ c = b ∧ post = post') ∨ c ∈ pre' ∨ b ∈ pre
  | [], post, [], post', heq => by
    simp only [List.nil_append, List.cons.injEq] at heq
    exact Or.inl ⟨rfl, heq.1, heq.2⟩
  | [], post, b' :: pre'₂, post', heq => by
    simp only [List.nil_append, List.cons_append, List.cons.injEq] at heq
    exact Or.inr (Or.inl (heq.1 ▸ List.mem_cons_self b' pre'₂))
  | a :: pre₂, post, [], post', heq => by
    simp only [List.cons_append, List.nil_append, List.cons.injEq] at heq
    exact Or.inr (Or.inr (heq.1 ▸ List.mem_cons_self a pre₂))
  | a :: pre₂, post, a' :: pre'₂, post', heq => by
    simp only [List.cons_append, List.cons.injEq] at heq
    rcases two_splits heq.2 with ⟨h1, h2, h3⟩ | h | h
    · exact Or.inl ⟨by rw [heq.1, h1], h2, h3⟩
    · exact Or.inr (Or.inl (List.mem_cons_of_mem _ h))
    · exact Or.inr (Or.inr (List.mem_cons_of_mem _ h))

/-- Invariant of the `bestRect`/`bestScore` fold: either nothing beat the
incoming best (and every surviving candidate scores no higher), or the
result is the first surviving candidate of maximal score that strictly
beats the incoming best. -/
theorem foldBest_spec (w h : ℕ) :
    ∀ (l : List ((Line × Line) × (Line × Line)))
      (acc : Option ((Line × Line) × (Line × Line))),
      (l.foldl (stepBest w h) acc = acc ∧
        ∀ c ∈ l.filter (candOK w h), candScore w h c ≤ bestScoreOf w h acc) ∨
      (∃ pre b post, l.filter (candOK w h) = pre ++ b :: post ∧
        l.foldl (stepBest w h) acc = some b ∧
        bestScoreOf w h acc < candScore w h b ∧
        (∀ c ∈ pre, candScore w h c < candScore w h b) ∧
        (∀ c ∈ post, candScore w h c ≤ candScore w h b))
  | [], acc => Or.inl ⟨rfl, by simp⟩
  | c :: rest, acc => by
    by_cases hok : candOK w h c
    · have hfilter : (c :: rest).filter (candOK w h) =
          c :: rest.filter (candOK w h) := List.filter_cons_of_pos hok
      by_cases hgt : candScore w h c > bestScoreOf w h acc
      · have hstep : stepBest w h acc c = some c := by
          unfold stepBest
          rw [if_pos hok, if_pos hgt]
        have hfold : (c :: rest).foldl (stepBest w h) acc =
            rest.foldl (stepBest w h) (some c) := by
          rw [List.foldl_cons, hstep]
        rcases foldBest_spec w h rest (some c) with ⟨h1, h2⟩ | ⟨pre, b, post, hs, hf, hlt, hpre, hpost⟩
        · refine Or.inr ⟨[], c, rest.filter (candOK w h), by simp [hfilter], ?_, hgt, by simp, ?_⟩
          · rw [hfold, h1]
          · intro z hz
            exact h2 z hz
        · refine Or.inr ⟨c :: pre, b, post, by simp [hfilter, hs], ?_, ?_, ?_, hpost⟩
          · rw [hfold, hf]
          · exact lt_trans hgt hlt
          · intro z hz
            rcases List.mem_cons.mp hz with hzc | hzp
            · subst hzc
              exact hlt
            · exact hpre z hzp
      · have hstep : stepBest w h acc c = acc := by
          unfold stepBest
          rw [if_pos hok, if_neg hgt]
        have hfold : (c :: rest).foldl (stepBest w h) acc =
            rest.foldl (stepBest w h) acc := by
          rw [List.foldl_cons, hstep]
        rcases foldBest_spec w h rest acc with ⟨h1, h2⟩ | ⟨pre, b, post, hs, hf, hlt, hpre, hpost⟩
        · refine Or.inl ⟨by rw [hfold, h1], ?_⟩
          intro z hz
          rw [hfilter] at hz
          rcases List.mem_cons.mp hz with hzc | hzp
          · subst hzc
            exact not_lt.mp hgt
          · exact h2 z hzp
        · refine Or.inr ⟨c :: pre, b, post, by simp [hfilter, hs], by rw [hfold, hf], hlt, ?_, hpost⟩
          intro z hz
          rcases List.mem_cons.mp hz with hzc | hzp
          · subst hzc
            exact lt_of_le_of_lt (not_lt.mp hgt) hlt
          · exact hpre z hzp
    · have hfilter : (c :: rest).filter (candOK w h) =
          rest.filter (candOK w h) := List.filter_cons_of_neg (by simpa using hok)
      have hstep : stepBest w h acc c = acc := by
        unfold stepBest
        rw [if_neg hok]
      have hfold : (c :: rest).foldl (stepBest w h) acc =
          rest.foldl (stepBest w h) acc := by
        rw [List.foldl_cons, hstep]
      rcases foldBest_spec w h rest acc with ⟨h1, h2⟩ | ⟨pre, b, post, hs, hf, hlt, hpre, hpost⟩
      · exact Or.inl ⟨by rw [hfold, h1], by rw [hfilter]; exact h2⟩
      · exact Or.inr ⟨pre, b, post, by rw [hfilter]; exact hs, by rw [hfold, hf], hlt, hpre, hpost⟩

/-- A candidate surviving the 30% filters has strictly positive score when
the image has positive dimensions. -/
theorem candScore_pos {w h : ℕ} (hw : 1 ≤ w) (hh : 1 ≤ h)
    {c : (Line × Line) × (Line × Line)} (hok : candOK w h c = true) :
    0 < candScore w h c := by
  unfold candOK at hok
  rw [Bool.and_eq_true, decide_eq_true_eq, decide_eq_true_eq] at hok
  obtain ⟨hrh, hrw⟩ := hok
  have hw1 : (1 : ℚ) ≤ (w : ℚ) := by exact_mod_cast hw
  have hh1 : (1 : ℚ) ≤ (h : ℚ) := by exact_mod_cast hh
  have hrh' : (3 / 10 : ℚ) ≤ ((c.1.2.position - c.1.1.position : ℤ) : ℚ) := by
    have := not_lt.mp hrh
    nlinarith
  have hrw' : (3 / 10 : ℚ) ≤ ((c.2.2.position - c.2.1.position : ℤ) : ℚ) := by
    have := not_lt.mp hrw
    nlinarith
  unfold candScore
  dsimp only
  have hrhZ : (0 : ℤ) < c.1.2.position - c.1.1.position := by
    by_contra hneg
    push_neg at hneg
    have : ((c.1.2.position - c.1.1.position : ℤ) : ℚ) ≤ 0 := by exact_mod_cast hneg
    linarith
  have hrwZ : (0 : ℤ) < c.2.2.position - c.2.1.position := by
    by_contra hneg
    push_neg at hneg
    have : ((c.2.2.position - c.2.1.position : ℤ) : ℚ) ≤ 0 := by exact_mod_cast hneg
    linarith
  have harea : (0 : ℚ) <
      (((c.2.2.position - c.2.1.position) * (c.1.2.position - c.1.1.position) : ℤ) : ℚ) := by
    have : (0 : ℤ) < (c.2.2.position - c.2.1.position) * (c.1.2.position - c.1.1.position) :=
      mul_pos hrwZ hrhZ
    exact_mod_cast this
  have haspect : (0 : ℚ) <
      ((min (c.2.2.position - c.2.1.position) (c.1.2.position - c.1.1.position) : ℤ) : ℚ) /
        ((max (c.2.2.position - c.2.1.position) (c.1.2.position - c.1.1.position) : ℤ) : ℚ) := by
    apply div_pos
    · have : (0 : ℤ) < min (c.2.2.position - c.2.1.position) (c.1.2.position - c.1.1.position) :=
        lt_min hrwZ hrhZ
      exact_mod_cast this
    · have : (0 : ℤ) < max (c.2.2.position - c.2.1.position) (c.1.2.position - c.1.1.position) :=
        lt_max_of_lt_left hrwZ
      exact_mod_cast this
  have hbonus : (0 : ℚ) <
      (if ((min (c.2.2.position - c.2.1.position) (c.1.2.position - c.1.1.position) : ℤ) : ℚ) /
          ((max (c.2.2.position - c.2.1.position) (c.1.2.position - c.1.1.position) : ℤ) : ℚ) >
          9 / 10 then (5 / 2 : ℚ)
        else if ((min (c.2.2.position - c.2.1.position) (c.1.2.position - c.1.1.position) : ℤ) : ℚ) /
          ((max (c.2.2.position - c.2.1.position) (c.1.2.position - c.1.1.position) : ℤ) : ℚ) >
          8 / 10 then 2
        else if ((min (c.2.2.position - c.2.1.position) (c.1.2.position - c.1.1.position) : ℤ) : ℚ) /
          ((max (c.2.2.position - c.2.1.position) (c.1.2.position - c.1.1.position) : ℤ) : ℚ) >
          7 / 10 then 3 / 2
        else 1) := by
    split
    · norm_num
    · split
      · norm_num
      · split
        · norm_num
        · norm_num
  have hpen : (0 : ℚ) <
      (if ((c.1.1.position : ℤ) : ℚ) < ((min w h : ℕ) : ℚ) * (2 / 100) then (7 / 10 : ℚ) else 1) *
      (if ((c.1.2.position : ℤ) : ℚ) > (h : ℚ) - ((min w h : ℕ) : ℚ) * (2 / 100) then (7 / 10 : ℚ) else 1) *
      (if ((c.2.1.position : ℤ) : ℚ) < ((min w h : ℕ) : ℚ) * (2 / 100) then (8 / 10 : ℚ) else 1) *
      (if ((c.2.2.position : ℤ) : ℚ) > (w : ℚ) - ((min w h : ℕ) : ℚ) * (2 / 100) then (8 / 10 : ℚ) else 1) := by
    apply mul_pos
    apply mul_pos
    apply mul_pos
    · split <;> norm_num
    · split <;> norm_num
    · split <;> norm_num
    · split <;> norm_num
  exact mul_pos (mul_pos (mul_pos harea haspect) hbonus) hpen

/-- C4: given grouped lines, `findRectangleFromLines` considers every pair
`(top,bottom)` from H and `(left,right)` from V in iteration order, rejects
candidates below 30% of the image dimensions (`candOK`), scores the rest
(`candScore` = area × aspectRatio × squareBonus × boundaryPenalty), and
returns the maximum-score candidate with ties keeping the first in
iteration order; it returns `none` when either list has fewer than 2
entries or no candidate survives the filters. -/
theorem C4_findRectangleFromLines (hL vL : List Line) (w h : ℕ)
    (hw : 1 ≤ w) (hh : 1 ≤ h) :
    (hL.length < 2 ∨ vL.length < 2 → findRectangleFromLines hL vL w h = none) ∧
    (2 ≤ hL.length → 2 ≤ vL.length →
      (((rectCandidates hL vL).filter (candOK w h) = [] →
          findRectangleFromLines hL vL w h = none) ∧
       ((rectCandidates hL vL).filter (candOK w h) ≠ [] →
          ∃ b, findRectangleFromLines hL vL w h = some (candRect b) ∧
            b ∈ (rectCandidates hL vL).filter (candOK w h) ∧
            ∀ c' ∈ (rectCandidates hL vL).filter (candOK w h),
              candScore w h c' ≤ candScore w h b) ∧
       (∀ pre c post,
          (rectCandidates hL vL).filter (candOK w h) = pre ++ c :: post →
          (∀ c' ∈ pre, candScore w h c' < candScore w h c) →
          (∀ c' ∈ post, candScore w h c' ≤ candScore w h c) →
          findRectangleFromLines hL vL w h = some (candRect c)))) := by
  constructor
  · intro hshort
    unfold findRectangleFromLines
    rw [if_pos hshort]
  · intro hL2 vL2
    have hcond : ¬ (hL.length < 2 ∨ vL.length < 2) := by omega
    have hval : findRectangleFromLines hL vL w h =
        ((rectCandidates hL vL).foldl (stepBest w h) none).map candRect := by
      unfold findRectangleFromLines
      rw [if_neg hcond]
    refine ⟨?_, ?_, ?_⟩
    · intro hempty
      rcases foldBest_spec w h (rectCandidates hL vL) none with ⟨h1, _⟩ |
          ⟨pre, b, post, hs, _, _, _, _⟩
      · rw [hval, h1]
        rfl
      · rw [hempty] at hs
        exact absurd hs.symm (by simp)
    · intro hne
      rcases foldBest_spec w h (rectCandidates hL vL) none with ⟨h1, h2⟩ |
          ⟨pre, b, post, hs, hf, hlt, hpre, hpost⟩
      · obtain ⟨c, hc⟩ := List.exists_mem_of_ne_nil _ hne
        have hok : candOK w h c = true := (List.mem_filter.mp hc).2
        have := candScore_pos hw hh hok
        have := h2 c hc
        simp only [bestScoreOf] at this
        linarith
      · refine ⟨b, by rw [hval, hf]; rfl, by rw [hs]; simp, ?_⟩
        intro c' hc'
        rw [hs] at hc'
        rcases List.mem_append.mp hc' with hp | hcp
        · exact le_of_lt (hpre c' hp)
        · rcases List.mem_cons.mp hcp with hcb | hpp
          · subst hcb
            exact le_refl _
          · exact hpost c' hpp
    · intro pre c post hsplit hprec hpostc
      rcases foldBest_spec w h (rectCandidates hL vL) none with ⟨h1, h2⟩ |
          ⟨pre', b, post', hs', hf', hlt', hpre', hpost'⟩
      · have hcmem : c ∈ (rectCandidates hL vL).filter (candOK w h) := by
          rw [hsplit]
          simp
        have hok : candOK w h c = true := (List.mem_filter.mp hcmem).2
        have := candScore_pos hw hh hok
        have := h2 c hcmem
        simp only [bestScoreOf] at this
        linarith
      · have heq : pre ++ c :: post = pre' ++ b :: post' := by
          rw [← hsplit, ← hs']
        have hbmem : b ∈ pre ++ c :: post := by
          rw [heq]
          simp
        have hcmem : c ∈ pre' ++ b :: post' := by
          rw [← heq]
          simp
        have hbc : b = c := by
          rcases two_splits heq with ⟨-, hcb, -⟩ | hcpre' | hbpre
          · exact hcb.symm
          · have h1 : candScore w h c < candScore w h b := hpre' c hcpre'
            rcases List.mem_append.mp hbmem with hp | hcp
            · have := hprec b hp
              linarith
            · rcases List.mem_cons.mp hcp with hbceq | hpp
              · subst hbceq
                linarith
              · have := hpostc b hpp
                linarith
          · have h1 : candScore w h b < candScore w h c := hprec b hbpre
            rcases List.mem_append.mp hcmem with hp | hcp
            · have := hpre' c hp
              linarith
            · rcases List.mem_cons.mp hcp with hcbeq | hpp
              · subst hcbeq
                linarith
              · have := hpost' c hpp
                linarith
        rw [hval, hf', hbc]
        rfl

/-- Witness for C4: with horizontal lines at rows 0 and 9 and vertical lines
at columns 1 and 9 on a 10×10 image, the single surviving candidate is
returned. -/
theorem C4_witness :
    findRectangleFromLines [⟨0, 1⟩, ⟨9, 1⟩] [⟨1, 1⟩, ⟨9, 1⟩] 10 10 =
      some (candRect ((⟨0, 1⟩, ⟨9, 1⟩), (⟨1, 1⟩, ⟨9, 1⟩))) := by
  have hok : candOK 10 10 ((⟨0, 1⟩, ⟨9, 1⟩), (⟨1, 1⟩, ⟨9, 1⟩)) = true := by
    simp only [candOK, Bool.and_eq_true, decide_eq_true_eq]
    norm_num
  have hfilter : (rectCandidates [⟨0, 1⟩, ⟨9, 1⟩]
        [(⟨1, 1⟩ : Line), ⟨9, 1⟩]).filter (candOK 10 10) =
      [] ++ ((⟨0, 1⟩, ⟨9, 1⟩), (⟨1, 1⟩, ⟨9, 1⟩)) :: [] := by
    rw [show rectCandidates [⟨0, 1⟩, ⟨9, 1⟩] [(⟨1, 1⟩ : Line), ⟨9, 1⟩] =
      [((⟨0, 1⟩, ⟨9, 1⟩), (⟨1, 1⟩, ⟨9, 1⟩))] from rfl]
    rw [List.filter_cons_of_pos hok]
    rfl
  exact ((C4_findRectangleFromLines [⟨0, 1⟩, ⟨9, 1⟩] [⟨1, 1⟩, ⟨9, 1⟩] 10 10
      (by decide) (by decide)).2 (by decide) (by decide)).2.2 []
    ((⟨0, 1⟩, ⟨9, 1⟩), (⟨1, 1⟩, ⟨9, 1⟩)) [] hfilter (by simp) (by simp)

/-! ## Theorems: C5 (rectangle invariants).  First, the all-white 1×1 image
is computed through the whole pipeline: every strategy falls through and
the dark-pixel fallback returns the degenerate rectangle `{0,0,0,0}`. -/

theorem toGrayscale_white1 : toGrayscale ⟨[255, 255, 255, 255], 1, 1⟩ = [255] := rfl

theorem blur_white1 : gaussianBlur [255] 1 1 = [0] := rfl

theorem canny_white1 : cannyEdgeDetection [0] 1 1 = [0] := rfl

theorem fhl_white1 : findHorizontalLines [0] 1 1 = [] := by
  unfold findHorizontalLines
  rw [show List.range 1 = [0] from rfl, List.filterMap_cons]
  rw [if_neg, List.filterMap_nil]
  rw [show rowMaxRun [0] 1 0 = 0 from rfl]
  norm_num

theorem fvl_white1 : findVerticalLines [0] 1 1 = [] := by
  unfold findVerticalLines
  rw [show List.range 1 = [0] from rfl, List.filterMap_cons]
  rw [if_neg, List.filterMap_nil]
  rw [show colMaxRun [0] 1 1 0 = 0 from rfl]
  norm_num

theorem hDensity_white1 : hDensity [0] 1 1 0 = 0 := by
  unfold hDensity
  rw [if_pos (by norm_num)]
  rw [show ((List.range 1).countP fun x => decide (0 < ([0] : List ℕ).getD (0 * 1 + x) 0)) = 0
    from rfl]
  norm_num

theorem topPred_white1 : lowThreshTopPred [0] 1 1 0 0 = false := by
  unfold lowThreshTopPred
  rw [decide_eq_false (by rw [hDensity_white1]; norm_num), Bool.false_and]

theorem bestTop_white1 : bestTopOf [0] 1 1 0 = 0 := by
  unfold bestTopOf
  rw [show List.range (1 - 0) = [0] from rfl,
    List.find?_cons_of_neg _ (by rw [topPred_white1]; exact Bool.false_ne_true)]
  rfl

theorem bestBottom_white1 : bestBottomOf [0] 1 1 0 0 = 0 := rfl

theorem vDensity_white1 : vDensity [0] 1 1 0 0 0 = 0 := by
  unfold vDensity
  rw [if_pos (by norm_num)]
  rw [show (((List.range 1).filter fun y : ℕ => decide (0 ≤ y ∧ (y : ℤ) ≤ 0)).countP
      fun y : ℕ => decide (0 < ([0] : List ℕ).getD (y * 1 + 0) 0)) = 0 from rfl]
  norm_num

theorem leftPred_white1 : lowThreshLeftPred [0] 1 1 0 0 0 0 = false := by
  unfold lowThreshLeftPred
  rw [decide_eq_false (by rw [vDensity_white1]; norm_num), Bool.false_and]

theorem bestLeft_white1 : bestLeftOf [0] 1 1 0 0 0 = 0 := by
  unfold bestLeftOf
  rw [show List.range (1 - 0) = [0] from rfl,
    List.find?_cons_of_neg _ (by rw [leftPred_white1]; exact Bool.false_ne_true)]
  rfl

theorem bestRight_white1 : bestRightOf [0] 1 1 0 0 0 0 = 0 := rfl

theorem frlt_white1 : findRectangleLowThreshold [0] 1 1 = none := by
  unfold findRectangleLowThreshold
  dsimp only
  rw [show (1 * 5 / 100 : ℕ) = 0 from rfl]
  rw [bestTop_white1, bestBottom_white1, bestLeft_white1, bestRight_white1]
  rw [if_pos]
  left
  norm_num

theorem rowDarkFrac_white1 : rowDarkFrac [255] 1 0 = 0 := by
  unfold rowDarkFrac
  rw [show ((List.range 1).countP fun x => decide (([255] : List ℕ).getD (0 * 1 + x) 0 < 200)) = 0
    from rfl]
  norm_num

theorem colDarkFrac_white1 : colDarkFrac [255] 1 1 0 = 0 := by
  unfold colDarkFrac
  rw [show ((List.range 1).countP fun y => decide (([255] : List ℕ).getD (y * 1 + 0) 0 < 200)) = 0
    from rfl]
  norm_num

theorem darkPixels_white1 :
    findRectangleDarkPixels [255] 1 1 = ⟨0, 0, 0, 0⟩ := by
  unfold findRectangleDarkPixels
  dsimp only
  have hrow : ((List.range 1).find? fun y =>
      decide ((1 / 10 : ℚ) < rowDarkFrac [255] 1 y)) = none := by
    rw [show List.range 1 = [0] from rfl,
      List.find?_cons_of_neg _ (by
        rw [decide_eq_false (by rw [rowDarkFrac_white1]; norm_num)]
        exact Bool.false_ne_true)]
    rfl
  have hrowr : (((List.range 1).reverse).find? fun y =>
      decide ((1 / 10 : ℚ) < rowDarkFrac [255] 1 y)) = none := by
    rw [show (List.range 1).reverse = [0] from rfl,
      List.find?_cons_of_neg _ (by
        rw [decide_eq_false (by rw [rowDarkFrac_white1]; norm_num)]
        exact Bool.false_ne_true)]
    rfl
  have hcol : ((List.range 1).find? fun x =>
      decide ((1 / 10 : ℚ) < colDarkFrac [255] 1 1 x)) = none := by
    rw [show List.range 1 = [0] from rfl,
      List.find?_cons_of_neg _ (by
        rw [decide_eq_false (by rw [colDarkFrac_white1]; norm_num)]
        exact Bool.false_ne_true)]
    rfl
  have hcolr : (((List.range 1).reverse).find? fun x =>
      decide ((1 / 10 : ℚ) < colDarkFrac [255] 1 1 x)) = none := by
    rw [show (List.range 1).reverse = [0] from rfl,
      List.find?_cons_of_neg _ (by
        rw [decide_eq_false (by rw [colDarkFrac_white1]; norm_num)]
        exact Bool.false_ne_true)]
    rfl
  rw [hrow, hrowr, hcol, hcolr]
  rfl

/-- The full pipeline on the all-white 1×1 image: both fallible strategies
fail and the dark-pixel fallback returns the degenerate `{0,0,0,0}`. -/
theorem detect_white1 :
    detectBoardRectangle ⟨[255, 255, 255, 255], 1, 1⟩ = some ⟨0, 0, 0, 0⟩ := by
  unfold detectBoardRectangle
  dsimp only
  rw [toGrayscale_white1, blur_white1, canny_white1, fhl_white1, fvl_white1]
  rw [show groupLines [] ((((min 1 1 : ℕ) : ℚ)) * (3 / 100)) = [] from rfl]
  rw [show findRectangleFromLines [] [] 1 1 = none from rfl]
  rw [frlt_white1, darkPixels_white1]

theorem orderedPairs_mem {α : Type} {a b : α} :
    ∀ {l : List α}, (a, b) ∈ orderedPairs l → a ∈ l ∧ b ∈ l
  | c :: rest, hmem => by
    unfold orderedPairs at hmem
    rcases List.mem_append.mp hmem with hmap | hrec
    · obtain ⟨b', hb', heq⟩ := List.mem_map.mp hmap
      obtain ⟨rfl, rfl⟩ := Prod.mk.injEq a b c b' ▸ And.intro
        (congrArg Prod.fst heq).symm (congrArg Prod.snd heq).symm
      exact ⟨List.mem_cons_self _ _, List.mem_cons_of_mem _ hb'⟩
    · have := orderedPairs_mem hrec
      exact ⟨List.mem_cons_of_mem _ this.1, List.mem_cons_of_mem _ this.2⟩

theorem rectCandidates_mem {hL vL : List Line}
    {c : (Line × Line) × (Line × Line)} (hmem : c ∈ rectCandidates hL vL) :
    c.1.1 ∈ hL ∧ c.1.2 ∈ hL ∧ c.2.1 ∈ vL ∧ c.2.2 ∈ vL := by
  unfold rectCandidates at hmem
  rw [List.mem_flatMap] at hmem
  obtain ⟨hp, hhp, hmem2⟩ := hmem
  obtain ⟨vp, hvp, heq⟩ := List.mem_map.mp hmem2
  subst heq
  have h1 := @orderedPairs_mem _ hp.1 hp.2 hL (by simpa using hhp)
  have h2 := @orderedPairs_mem _ vp.1 vp.2 vL (by simpa using hvp)
  exact ⟨h1.1, h1.2, h2.1, h2.2⟩

theorem insertLine_mem {m : ℚ} {x l : Line} :
    ∀ {acc : List Line}, x ∈ insertLine m acc l → x ∈ acc ∨ x = l
  | [], hmem => by
    unfold insertLine at hmem
    exact Or.inr (List.mem_singleton.mp hmem)
  | g :: rest, hmem => by
    unfold insertLine at hmem
    split at hmem
    · rcases List.mem_cons.mp hmem with hx | hx
      · split at hx
        · exact Or.inr hx
        · exact Or.inl (hx ▸ List.mem_cons_self g rest)
      · exact Or.inl (List.mem_cons_of_mem g hx)
    · rcases List.mem_cons.mp hmem with hx | hx
      · exact Or.inl (hx ▸ List.mem_cons_self g rest)
      · rcases insertLine_mem hx with h | h
        · exact Or.inl (List.mem_cons_of_mem g h)
        · exact Or.inr h

theorem foldl_insertLine_mem {m : ℚ} {x : Line} :
    ∀ {lines : List Line} {acc : List Line},
      x ∈ lines.foldl (insertLine m) acc → x ∈ acc ∨ x ∈ lines
  | [], acc, hmem => Or.inl hmem
  | l :: rest, acc, hmem => by
    rw [List.foldl_cons] at hmem
    rcases foldl_insertLine_mem hmem with h | h
    · rcases insertLine_mem h with h2 | h2
      · exact Or.inl h2
      · exact Or.inr (h2 ▸ List.mem_cons_self l rest)
    · exact Or.inr (List.mem_cons_of_mem l h)

theorem insertSorted_mem {x a : Line} :
    ∀ {l : List Line}, x ∈ insertSorted a l → x = a ∨ x ∈ l
  | [], hmem => by
    unfold insertSorted at hmem
    exact Or.inl (List.mem_singleton.mp hmem)
  | b :: rest, hmem => by
    unfold insertSorted at hmem
    split at hmem
    · rcases List.mem_cons.mp hmem with h | h
      · exact Or.inl h
      · exact Or.inr h
    · rcases List.mem_cons.mp hmem with h | h
      · exact Or.inr (h ▸ List.mem_cons_self b rest)
      · rcases insertSorted_mem h with h2 | h2
        · exact Or.inl h2
        · exact Or.inr (List.mem_cons_of_mem b h2)

theorem sortLines_mem {x : Line} :
    ∀ {l : List Line}, x ∈ sortLines l → x ∈ l
  | [], hmem => hmem
  | a :: rest, hmem => by
    unfold sortLines at hmem
    rcases insertSorted_mem hmem with h | h
    · exact h ▸ List.mem_cons_self a rest
    · exact List.mem_cons_of_mem a (sortLines_mem h)

theorem groupLines_mem {x : Line} {lines : List Line} {m : ℚ}
    (hmem : x ∈ groupLines lines m) : x ∈ lines := by
  unfold groupLines at hmem
  rcases foldl_insertLine_mem (sortLines_mem hmem) with h | h
  · exact absurd h (List.not_mem_nil x)
  · exact h

theorem findHorizontalLines_pos {edges : List ℕ} {w h : ℕ} {l : Line}
    (hmem : l ∈ findHorizontalLines edges w h) :
    0 ≤ l.position ∧ l.position < (h : ℤ) := by
  unfold findHorizontalLines at hmem
  obtain ⟨y, hy, heq⟩ := List.mem_filterMap.mp hmem
  split at heq
  · obtain rfl := Option.some_inj.mp heq
    have := List.mem_range.mp hy
    constructor
    · exact Int.natCast_nonneg y
    · show ((y : ℕ) : ℤ) < (h : ℤ)
      exact_mod_cast this
  · exact absurd heq (by simp)

theorem findVerticalLines_pos {edges : List ℕ} {w h : ℕ} {l : Line}
    (hmem : l ∈ findVerticalLines edges w h) :
    0 ≤ l.position ∧ l.position < (w : ℤ) := by
  unfold findVerticalLines at hmem
  obtain ⟨x, hx, heq⟩ := List.mem_filterMap.mp hmem
  split at heq
  · obtain rfl := Option.some_inj.mp heq
    have := List.mem_range.mp hx
    constructor
    · exact Int.natCast_nonneg x
    · show ((x : ℕ) : ℤ) < (w : ℤ)
      exact_mod_cast this
  · exact absurd heq (by simp)

/-- Bounds of a forward/backward first-hit scan pair over `[0, n)` with
defaults `0` and `n-1`: the pair is ordered and stays inside `[0, n)`. -/
theorem scanPair_bounds {p : ℕ → Bool} {n : ℕ} (hn : 1 ≤ n) :
    (0 : ℤ) ≤ ((((List.range n).find? p).getD 0 : ℕ) : ℤ) ∧
    ((((List.range n).find? p).getD 0 : ℕ) : ℤ) ≤
      (match (List.range n).reverse.find? p with
       | some y => (y : ℤ)
       | none => (n : ℤ) - 1) ∧
    (match (List.range n).reverse.find? p with
     | some y => (y : ℤ)
     | none => (n : ℤ) - 1) < (n : ℤ) := by
  cases hf : (List.range n).find? p with
  | some y =>
    obtain ⟨hyn, hpy, hearly⟩ := find?_range_some hf
    cases hfr : (List.range n).reverse.find? p with
    | some y' =>
      obtain ⟨hy'n, hpy', hlater⟩ := find?_range_reverse_some hfr
      have hle : y ≤ y' := by
        by_contra hgt
        push_neg at hgt
        have := hearly y' hgt
        rw [hpy'] at this
        exact absurd this (by simp)
      refine ⟨Int.natCast_nonneg _, ?_, ?_⟩
      · show (((some y).getD 0 : ℕ) : ℤ) ≤ ((y' : ℕ) : ℤ)
        simp only [Option.getD_some]
        exact_mod_cast hle
      · show ((y' : ℕ) : ℤ) < (n : ℤ)
        exact_mod_cast hy'n
    | none =>
      have := List.find?_eq_none.mp hfr y
        (by rw [List.mem_reverse]; exact List.mem_range.mpr hyn)
      rw [hpy] at this
      exact absurd this (by simp)
  | none =>
    cases hfr : (List.range n).reverse.find? p with
    | some y' =>
      refine ⟨Int.natCast_nonneg _, ?_, ?_⟩
      · show (((Option.none).getD 0 : ℕ) : ℤ) ≤ ((y' : ℕ) : ℤ)
        simp only [Option.getD_none]
        positivity
      · show ((y' : ℕ) : ℤ) < (n : ℤ)
        exact_mod_cast (find?_range_reverse_some hfr).1
    | none =>
      refine ⟨Int.natCast_nonneg _, ?_, ?_⟩
      · show (((Option.none).getD 0 : ℕ) : ℤ) ≤ (n : ℤ) - 1
        simp only [Option.getD_none]
        omega
      · show (n : ℤ) - 1 < (n : ℤ)
        omega

/-- The dark-pixel fallback keeps all four bounds inside the image and
ordered (but possibly degenerate). -/
theorem darkPixels_bounds (gray : List ℕ) (w h : ℕ) (hw : 1 ≤ w) (hh : 1 ≤ h) :
    0 ≤ (findRectangleDarkPixels gray w h).left ∧
    (findRectangleDarkPixels gray w h).left ≤ (findRectangleDarkPixels gray w h).right ∧
    (findRectangleDarkPixels gray w h).right < (w : ℤ) ∧
    0 ≤ (findRectangleDarkPixels gray w h).top ∧
    (findRectangleDarkPixels gray w h).top ≤ (findRectangleDarkPixels gray w h).bottom ∧
    (findRectangleDarkPixels gray w h).bottom < (h : ℤ) := by
  unfold findRectangleDarkPixels
  dsimp only
  obtain ⟨hc1, hc2, hc3⟩ :=
    scanPair_bounds (p := fun x => decide ((1 / 10 : ℚ) < colDarkFrac gray w h x)) hw
  obtain ⟨hr1, hr2, hr3⟩ :=
    scanPair_bounds (p := fun y => decide ((1 / 10 : ℚ) < rowDarkFrac gray w y)) hh
  exact ⟨hc1, hc2, hc3, hr1, hr2, hr3⟩

theorem bestBottomOf_lt {edges : List ℕ} {w h ws bestTop : ℕ} (hh : 1 ≤ h) :
    bestBottomOf edges w h ws bestTop < (h : ℤ) := by
  unfold bestBottomOf
  cases hf : ((List.range h).reverse.filter fun y => decide (bestTop + ws < y)).find?
      (lowThreshBottomPred edges w h ws bestTop) with
  | some y =>
    have hmem := List.mem_of_find?_eq_some hf
    have hy : y ∈ (List.range h).reverse := (List.mem_filter.mp hmem).1
    rw [List.mem_reverse, List.mem_range] at hy
    show ((y : ℕ) : ℤ) < (h : ℤ)
    exact_mod_cast hy
  | none =>
    show (h : ℤ) - 1 < (h : ℤ)
    omega

theorem bestBottomOf_nonneg {edges : List ℕ} {w h ws bestTop : ℕ} (hh : 1 ≤ h) :
    0 ≤ bestBottomOf edges w h ws bestTop := by
  unfold bestBottomOf
  cases hf : ((List.range h).reverse.filter fun y => decide (bestTop + ws < y)).find?
      (lowThreshBottomPred edges w h ws bestTop) with
  | some y =>
    show (0 : ℤ) ≤ ((y : ℕ) : ℤ)
    positivity
  | none =>
    show (0 : ℤ) ≤ (h : ℤ) - 1
    omega

theorem bestRightOf_lt {edges : List ℕ} {w h bestTop : ℕ} {bestBottom : ℤ}
    {ws bestLeft : ℕ} (hw : 1 ≤ w) :
    bestRightOf edges w h bestTop bestBottom ws bestLeft < (w : ℤ) := by
  unfold bestRightOf
  cases hf : ((List.range w).reverse.filter fun x => decide (bestLeft + ws < x)).find?
      (lowThreshRightPred edges w h bestTop bestBottom ws bestLeft) with
  | some x =>
    have hmem := List.mem_of_find?_eq_some hf
    have hx : x ∈ (List.range w).reverse := (List.mem_filter.mp hmem).1
    rw [List.mem_reverse, List.mem_range] at hx
    show ((x : ℕ) : ℤ) < (w : ℤ)
    exact_mod_cast hx
  | none =>
    show (w : ℤ) - 1 < (w : ℤ)
    omega

/-- The density fallback, when it succeeds, returns a strictly ordered
rectangle inside the image. -/
theorem lowThreshold_some_bounds (edges : List ℕ) (w h : ℕ)
    (hw : 1 ≤ w) (hh : 1 ≤ h) (r : Rectangle)
    (hsome : findRectangleLowThreshold edges w h = some r) :
    0 ≤ r.left ∧ r.left < r.right ∧ r.right < (w : ℤ) ∧
    0 ≤ r.top ∧ r.top < r.bottom ∧ r.bottom < (h : ℤ) := by
  unfold findRectangleLowThreshold at hsome
  dsimp only at hsome
  split at hsome
  · exact absurd hsome (by simp)
  · next hcond =>
    push_neg at hcond
    set T := bestTopOf edges w h (h * 5 / 100) with hT
    set B := bestBottomOf edges w h (h * 5 / 100) T with hB
    set L := bestLeftOf edges w h T B (h * 5 / 100) with hLd
    set R := bestRightOf edges w h T B (h * 5 / 100) L with hRd
    obtain ⟨hwid, hhei⟩ := hcond
    obtain rfl := Option.some_inj.mp hsome
    have hw1 : (1 : ℚ) ≤ (w : ℚ) := by exact_mod_cast hw
    have hh1 : (1 : ℚ) ≤ (h : ℚ) := by exact_mod_cast hh
    have hwZ : (L : ℤ) < R := by
      have h2 : (0 : ℚ) < ((R - (L : ℤ) : ℤ) : ℚ) :=
        lt_of_lt_of_le (by nlinarith) hwid
      have h3 : (0 : ℤ) < R - (L : ℤ) := by exact_mod_cast h2
      omega
    have hhZ : (T : ℤ) < B := by
      have h2 : (0 : ℚ) < ((B - (T : ℤ) : ℤ) : ℚ) :=
        lt_of_lt_of_le (by nlinarith) hhei
      have h3 : (0 : ℤ) < B - (T : ℤ) := by exact_mod_cast h2
      omega
    refine ⟨Int.natCast_nonneg _, hwZ, ?_, Int.natCast_nonneg _, hhZ, ?_⟩
    · rw [hRd]
      exact bestRightOf_lt hw
    · rw [hB]
      exact bestBottomOf_lt hh

/-- The primary line-pair strategy, when it succeeds on lines whose
positions lie inside the image, returns a strictly ordered rectangle
inside the image. -/
theorem primary_some_bounds (hL vL : List Line) (w h : ℕ)
    (hw : 1 ≤ w) (hh : 1 ≤ h)
    (hposH : ∀ l ∈ hL, 0 ≤ l.position ∧ l.position < (h : ℤ))
    (hposV : ∀ l ∈ vL, 0 ≤ l.position ∧ l.position < (w : ℤ))
    (r : Rectangle) (hsome : findRectangleFromLines hL vL w h = some r) :
    0 ≤ r.left ∧ r.left < r.right ∧ r.right < (w : ℤ) ∧
    0 ≤ r.top ∧ r.top < r.bottom ∧ r.bottom < (h : ℤ) := by
  unfold findRectangleFromLines at hsome
  split at hsome
  · exact absurd hsome (by simp)
  · obtain ⟨b, hfold, hr⟩ := Option.map_eq_some'.mp hsome
    have hbmem : b ∈ (rectCandidates hL vL).filter (candOK w h) := by
      rcases foldBest_spec w h (rectCandidates hL vL) none with ⟨h1, _⟩ |
          ⟨pre, b', post, hs, hf, _, _, _⟩
      · rw [h1] at hfold
        exact absurd hfold (by simp)
      · rw [hf] at hfold
        obtain rfl := Option.some_inj.mp hfold
        rw [hs]
        simp
    have hcand := (List.mem_filter.mp hbmem).1
    have hok := (List.mem_filter.mp hbmem).2
    obtain ⟨h11, h12, h21, h22⟩ := rectCandidates_mem hcand
    unfold candOK at hok
    rw [Bool.and_eq_true, decide_eq_true_eq, decide_eq_true_eq] at hok
    obtain ⟨hrh, hrw⟩ := hok
    have hw1 : (1 : ℚ) ≤ (w : ℚ) := by exact_mod_cast hw
    have hh1 : (1 : ℚ) ≤ (h : ℚ) := by exact_mod_cast hh
    have htb : b.1.1.position < b.1.2.position := by
      have h2 : (0 : ℚ) < ((b.1.2.position - b.1.1.position : ℤ) : ℚ) :=
        lt_of_lt_of_le (by nlinarith) (not_lt.mp hrh)
      have h3 : (0 : ℤ) < b.1.2.position - b.1.1.position := by exact_mod_cast h2
      omega
    have hlr : b.2.1.position < b.2.2.position := by
      have h2 : (0 : ℚ) < ((b.2.2.position - b.2.1.position : ℤ) : ℚ) :=
        lt_of_lt_of_le (by nlinarith) (not_lt.mp hrw)
      have h3 : (0 : ℤ) < b.2.2.position - b.2.1.position := by exact_mod_cast h2
      omega
    subst hr
    exact ⟨(hposV _ h21).1, hlr, (hposV _ h22).2, (hposH _ h11).1, htb,
      (hposH _ h12).2⟩

/-- Counterexample for C5 as stated: on the all-white 1×1 image every
strategy falls through and `detectBoardRectangle` returns the degenerate
rectangle `{0,0,0,0}`, which violates `left < right` (and `top < bottom`). -/
theorem C5_counterexample :
    detectBoardRectangle ⟨[255, 255, 255, 255], 1, 1⟩ = some ⟨0, 0, 0, 0⟩ ∧
    ¬ ((0 : ℤ) < 0) :=
  ⟨detect_white1, by norm_num⟩

/-- C5, amended: every rectangle produced by `detectBoardRectangle` on an
image with positive dimensions satisfies the weak ordering
`0 ≤ left ≤ right < width` and `0 ≤ top ≤ bottom < height`; the primary
line-pair strategy and the density fallback additionally guarantee the
strict inequalities `left < right` and `top < bottom`, but the terminal
dark-pixel fallback may return a degenerate bound (`left = right` or
`top = bottom`, e.g. on a blank image). -/
theorem C5_rectangle_invariants :
    (∀ (img : ImageDataLike) (r : Rectangle), 1 ≤ img.width → 1 ≤ img.height →
      detectBoardRectangle img = some r →
      0 ≤ r.left ∧ r.left ≤ r.right ∧ r.right < (img.width : ℤ) ∧
      0 ≤ r.top ∧ r.top ≤ r.bottom ∧ r.bottom < (img.height : ℤ)) ∧
    (∀ (hL vL : List Line) (w h : ℕ) (r : Rectangle), 1 ≤ w → 1 ≤ h →
      (∀ l ∈ hL, 0 ≤ l.position ∧ l.position < (h : ℤ)) →
      (∀ l ∈ vL, 0 ≤ l.position ∧ l.position < (w : ℤ)) →
      findRectangleFromLines hL vL w h = some r →
      0 ≤ r.left ∧ r.left < r.right ∧ r.right < (w : ℤ) ∧
      0 ≤ r.top ∧ r.top < r.bottom ∧ r.bottom < (h : ℤ)) ∧
    (∀ (edges : List ℕ) (w h : ℕ) (r : Rectangle), 1 ≤ w → 1 ≤ h →
      findRectangleLowThreshold edges w h = some r →
      0 ≤ r.left ∧ r.left < r.right ∧ r.right < (w : ℤ) ∧
      0 ≤ r.top ∧ r.top < r.bottom ∧ r.bottom < (h : ℤ)) ∧
    (∀ (gray : List ℕ) (w h : ℕ), 1 ≤ w → 1 ≤ h →
      0 ≤ (findRectangleDarkPixels gray w h).left ∧
      (findRectangleDarkPixels gray w h).left ≤ (findRectangleDarkPixels gray w h).right ∧
      (findRectangleDarkPixels gray w h).right < (w : ℤ) ∧
      0 ≤ (findRectangleDarkPixels gray w h).top ∧
      (findRectangleDarkPixels gray w h).top ≤ (findRectangleDarkPixels gray w h).bottom ∧
      (findRectangleDarkPixels gray w h).bottom < (h : ℤ)) := by
  refine ⟨?_, fun hL vL w h r hw hh hposH hposV hsome =>
      primary_some_bounds hL vL w h hw hh hposH hposV r hsome,
    fun edges w h r hw hh hsome =>
      lowThreshold_some_bounds edges w h hw hh r hsome,
    fun gray w h hw hh => darkPixels_bounds gray w h hw hh⟩
  intro img r hw hh hsome
  unfold detectBoardRectangle at hsome
  dsimp only at hsome
  split at hsome
  · next r0 hprim =>
    obtain rfl := Option.some_inj.mp hsome
    have hb := primary_some_bounds _ _ img.width img.height hw hh
      (fun l hl => findHorizontalLines_pos (groupLines_mem hl))
      (fun l hl => findVerticalLines_pos (groupLines_mem hl)) r0 hprim
    exact ⟨hb.1, le_of_lt hb.2.1, hb.2.2.1, hb.2.2.2.1, le_of_lt hb.2.2.2.2.1,
      hb.2.2.2.2.2⟩
  · split at hsome
    · next r0 hlow =>
      obtain rfl := Option.some_inj.mp hsome
      have hb := lowThreshold_some_bounds _ img.width img.height hw hh r0 hlow
      exact ⟨hb.1, le_of_lt hb.2.1, hb.2.2.1, hb.2.2.2.1, le_of_lt hb.2.2.2.2.1,
        hb.2.2.2.2.2⟩
    · obtain rfl := Option.some_inj.mp hsome
      exact darkPixels_bounds _ img.width img.height hw hh

/-- Witness for C5 (amended): the `{0,0,0,0}` rectangle returned on the
all-white 1×1 image satisfies the weak bounds. -/
theorem C5_witness :
    0 ≤ (Rectangle.mk 0 0 0 0).left ∧
    (Rectangle.mk 0 0 0 0).left ≤ (Rectangle.mk 0 0 0 0).right ∧
    (Rectangle.mk 0 0 0 0).right < ((1 : ℕ) : ℤ) ∧
    0 ≤ (Rectangle.mk 0 0 0 0).top ∧
    (Rectangle.mk 0 0 0 0).top ≤ (Rectangle.mk 0 0 0 0).bottom ∧
    (Rectangle.mk 0 0 0 0).bottom < ((1 : ℕ) : ℤ) :=
  C5_rectangle_invariants.1 ⟨[255, 255, 255, 255], 1, 1⟩ ⟨0, 0, 0, 0⟩
    (by norm_num) (by norm_num) detect_white1
